import Mathlib

/-!
Verification of the `tonic-rest-openapi` document-transform pipeline
(crates/tonic-rest-openapi). The OpenAPI document is a `serde_yaml_ng::Value`
tree; we embed it as the inductive `Yaml` below. Mappings are association
lists (serde mappings are index maps with unique keys; lookup returns the
first matching entry, which coincides with index-map semantics on every
well-formed document). Where the Rust code removes entries from an index
map we model removal as filtering; the stated properties are all key-set,
lookup and value facts, which do not depend on the residual entry order.
-/

/-- Shallow embedding of `serde_yaml_ng::Value`. -/
inductive Yaml where
  | ystr : String → Yaml
  | ynum : Int → Yaml
  | ybool : Bool → Yaml
  | ynull : Yaml
  | yseq : List Yaml → Yaml
  | ymap : List (Yaml × Yaml) → Yaml

/-- `Value::as_str`. -/
def Yaml.asStr : Yaml → Option String
  | .ystr s => some s
  | _ => none

/-- `Value::as_mapping`. -/
def Yaml.asMap : Yaml → Option (List (Yaml × Yaml))
  | .ymap m => some m
  | _ => none

/-- `Value::as_sequence`. -/
def Yaml.asSeq : Yaml → Option (List Yaml)
  | .yseq s => some s
  | _ => none

/-- Whether a mapping key equals the string `k` (Rust compares a
`Value` key against a `&str`, which matches only `Value::String`). -/
def keyIs (y : Yaml) (k : String) : Bool :=
  match y with
  | .ystr s => s == k
  | _ => false

/-- `Mapping::get` with a string key: first entry whose key is the string. -/
def mget (m : List (Yaml × Yaml)) (k : String) : Option Yaml :=
  match m with
  | [] => none
  | (key, v) :: rest => if keyIs key k then some v else mget rest k

/-- `Mapping::contains_key` with a string key. -/
def mcontains (m : List (Yaml × Yaml)) (k : String) : Bool :=
  (mget m k).isSome

/-- Apply `f` to the value of the first entry with string key `k`
(the effect of mutating through `Mapping::get_mut`). -/
def mUpdateFirst (m : List (Yaml × Yaml)) (k : String) (f : Yaml → Yaml) :
    List (Yaml × Yaml) :=
  match m with
  | [] => []
  | (key, v) :: rest =>
    if keyIs key k then (key, f v) :: rest else (key, v) :: mUpdateFirst rest k f

/-- `Mapping::insert`: replace in place when the key exists, else append. -/
def mInsert (m : List (Yaml × Yaml)) (k : String) (v : Yaml) :
    List (Yaml × Yaml) :=
  if mcontains m k then mUpdateFirst m k (fun _ => v) else m ++ [(.ystr k, v)]

/-- `Mapping::entry(k).or_insert_with(dflt)`: ensure the key exists
(appending the default at the end when absent). -/
def mEntryOrInsert (m : List (Yaml × Yaml)) (k : String) (dflt : Yaml) :
    List (Yaml × Yaml) :=
  if mcontains m k then m else m ++ [(.ystr k, dflt)]

/-!
## Security transform (`patch/security.rs::add_security_schemes`)
-/

/-- The programmatically built `bearerAuth` scheme value. -/
def bearerScheme (description : String) : Yaml :=
  .ymap [(.ystr "type", .ystr "http"),
         (.ystr "scheme", .ystr "bearer"),
         (.ystr "bearerFormat", .ystr "JWT"),
         (.ystr "description", .ystr description)]

/-- The single element of the statically parsed `- bearerAuth: []` list. -/
def bearerRequirement : Yaml := .ymap [(.ystr "bearerAuth", .yseq [])]

/-- The in-place update on the ensured `securitySchemes` value: insert
the bearer scheme when the value is a mapping. -/
def updSchemes (description : String) (schemes : Yaml) : Yaml :=
  match schemes with
  | .ymap sm => .ymap (mInsert sm "bearerAuth" (bearerScheme description))
  | other => other

/-- The in-place update on the `components` value: ensure
`securitySchemes` exists and merge the bearer scheme into it. -/
def updComponents (description : String) (comp : Yaml) : Yaml :=
  match comp with
  | .ymap cm =>
    .ymap (mUpdateFirst (mEntryOrInsert cm "securitySchemes" (.ymap []))
      "securitySchemes" (updSchemes description))
  | other => other

/-- Step 1 of `add_security_schemes`: merge the bearer scheme into
`components.securitySchemes` (only when `components` exists and is a
mapping; the `securitySchemes` entry is created when absent). -/
def addBearerScheme (doc : Yaml) (description : String) : Yaml :=
  match doc with
  | .ymap root => .ymap (mUpdateFirst root "components" (updComponents description))
  | other => other

/-- Whether a security-requirement list already carries a `bearerAuth` item. -/
def hasBearerItem (seq : List Yaml) : Bool :=
  seq.any (fun item =>
    match item with
    | .ymap m => mcontains m "bearerAuth"
    | _ => false)

/-- The in-place update applied to the ensured `security` value: append
the bearer requirement only when the value is a sequence without one. -/
def updSecurity (v : Yaml) : Yaml :=
  match v with
  | .yseq s => if hasBearerItem s then .yseq s else .yseq (s ++ [bearerRequirement])
  | other => other

/-- Step 2 of `add_security_schemes`: ensure the top-level `security`
sequence exists and append the bearer requirement when it is not present. -/
def addBearerRequirement (doc : Yaml) : Yaml :=
  match doc with
  | .ymap root =>
    let root1 := mEntryOrInsert root "security" (.yseq [])
    .ymap (mUpdateFirst root1 "security" updSecurity)
  | other => other

/-- The HTTP method keys recognized by `for_each_operation`. -/
def httpMethods : List String :=
  ["get", "put", "post", "delete", "options", "head", "patch", "trace"]

/-- Whether a mapping key is one of the HTTP method keys. -/
def isHttpMethodKey (k : Yaml) : Bool :=
  httpMethods.any (fun m => keyIs k m)

/-- `for_each_operation` specialised to a per-operation rewriting function:
visit each `paths.<path>.<method>` mapping (HTTP method keys only) and
replace it by `f path method op`. -/
def forEachOperation (doc : Yaml) (f : String → String → List (Yaml × Yaml) → List (Yaml × Yaml)) :
    Yaml :=
  match doc with
  | .ymap root =>
    .ymap (mUpdateFirst root "paths" (fun paths =>
      match paths with
      | .ymap pm =>
        .ymap (pm.map (fun pkv =>
          match pkv with
          | (pathKey, .ymap opsm) =>
            let pathStr := (pathKey.asStr).getD ""
            (pathKey, .ymap (opsm.map (fun okv =>
              match okv with
              | (methodKey, .ymap opm) =>
                if isHttpMethodKey methodKey then
                  (methodKey, .ymap (f pathStr ((methodKey.asStr).getD "") opm))
                else (methodKey, .ymap opm)
              | other => other)))
          | other => other))
      | other => other))
  | other => other

/-- Step 3 of `add_security_schemes`: override resolved public operations
with an empty per-operation `security` list. -/
def overridePublicOps (doc : Yaml) (publicOps : List String) : Yaml :=
  forEachOperation doc (fun _ _ opm =>
    let opId := ((mget opm "operationId").bind Yaml.asStr).getD ""
    if publicOps.any (fun i => i == opId) then mInsert opm "security" (.yseq [])
    else opm)

/-- `add_security_schemes` from `patch/security.rs`: merge the bearer
scheme, append the global bearer requirement at most once, then override
public operations with empty security. -/
def add_security_schemes (doc : Yaml) (publicOps : List String)
    (bearerDescription : Option String) : Yaml :=
  let description := bearerDescription.getD "Bearer authentication token"
  overridePublicOps (addBearerRequirement (addBearerScheme doc description)) publicOps

/-- The top-level `security` value of a document, as a sequence. -/
def securityList (doc : Yaml) : Option (List Yaml) :=
  (doc.asMap.bind (fun root => mget root "security")).bind Yaml.asSeq

/-- The value registered for scheme `k` in `components.securitySchemes`. -/
def schemeLookup (doc : Yaml) (k : String) : Option Yaml :=
  ((((doc.asMap.bind (fun root => mget root "components")).bind
      Yaml.asMap).bind (fun cm => mget cm "securitySchemes")).bind
      Yaml.asMap).bind (fun sm => mget sm k)

/-- The root `security` value (before interpreting it as a sequence). -/
def rootSecurityVal (doc : Yaml) : Option Yaml :=
  doc.asMap.bind (fun root => mget root "security")

/-- Concrete document with a user-defined scheme and one existing
security requirement, used to witness the security theorems. -/
def secDoc0 : Yaml :=
  .ymap [(.ystr "components",
          .ymap [(.ystr "securitySchemes",
                  .ymap [(.ystr "apiKey", .ystr "x")])]),
         (.ystr "security", .yseq [.ymap [(.ystr "apiKey", .yseq [])]])]

/-- Concrete document with no `components` and no `security` key. -/
def secDoc1 : Yaml := .ymap [(.ystr "paths", .ymap [])]

/-!
## Method-name resolution (`discover.rs::resolve_single_operation_id`)
-/

/-- `discover.rs::OperationEntry`: short proto method name and its gnostic
`Service_Method` operation id. -/
structure OperationEntry where
  method_name : String
  operation_id : String

/-- The two resolver variants of `error.rs::Error` (the remaining variants
wrap I/O, YAML and descriptor-decode failures that occur outside the
resolution path modelled here). -/
inductive Error where
  | methodNotFound (method : String)
  | ambiguousMethodName (method : String) (candidates : List String)

/-- `str::split_once('.')` on the character list: split at the first dot. -/
def splitOnceDotAux : List Char → Option (List Char × List Char)
  | [] => none
  | c :: rest =>
    if c = '.' then some ([], rest)
    else (splitOnceDotAux rest).map (fun p => (c :: p.1, p.2))

/-- `str::split_once('.')`. -/
def splitOnceDot (s : String) : Option (String × String) :=
  (splitOnceDotAux s.toList).map (fun p => (p.1.asString, p.2.asString))

/-- `discover.rs::resolve_single_operation_id`: qualified `Service.Method`
names match the canonical id exactly; bare names must match exactly one
short method name. -/
def resolve_single_operation_id (metadata : List OperationEntry) (name : String) :
    Except Error String :=
  match splitOnceDot name with
  | some (service, method) =>
    let qualifiedId := service ++ "_" ++ method
    match metadata.find? (fun e => e.operation_id == qualifiedId) with
    | some e => .ok e.operation_id
    | none => .error (.methodNotFound name)
  | none =>
    match metadata.filter (fun e => e.method_name == name) with
    | [] => .error (.methodNotFound name)
    | [e] => .ok e.operation_id
    | e :: e2 :: rest =>
      .error (.ambiguousMethodName name ((e :: e2 :: rest).map (fun x => x.operation_id)))

/-- `discover.rs::resolve_operation_ids`: resolve each supplied name,
failing on the first unresolvable one. -/
def resolve_operation_ids (metadata : List OperationEntry) (names : List String) :
    Except Error (List String) :=
  names.mapM (resolve_single_operation_id metadata)

/-- Concrete metadata used by the resolver witnesses: one unambiguous
method and one short name shared by two services. -/
def resolverMd0 : List OperationEntry :=
  [⟨"Authenticate", "AuthService_Authenticate"⟩,
   ⟨"Delete", "AuthService_Delete"⟩,
   ⟨"Delete", "UserService_Delete"⟩]

/-!
## Field validation-rule translation (`discover.rs::field_to_constraint`)

Machine integers are embedded as `Nat` (u32/u64) and `Int` (i32/i64), with
the saturating operations written out explicitly against the type bounds.
-/

/-- `validate.MessageRules` (decoded subset). -/
structure MessageRules where
  required : Option Bool
deriving DecidableEq

/-- `validate.StringRules` (decoded subset); `inVals` embeds `r#in`. -/
structure StringRules where
  min_len : Option Nat
  max_len : Option Nat
  pattern : Option String
  inVals : List String
  uuid : Option Bool
deriving DecidableEq

/-- `validate.Int32Rules` (values range over i32). -/
structure Int32Rules where
  lt : Option Int
  lte : Option Int
  gt : Option Int
  gte : Option Int
deriving DecidableEq

/-- `validate.UInt32Rules` (values range over u32). -/
structure UInt32Rules where
  lt : Option Nat
  lte : Option Nat
  gt : Option Nat
  gte : Option Nat
deriving DecidableEq

/-- `validate.UInt64Rules` (values range over u64). -/
structure UInt64Rules where
  lt : Option Nat
  lte : Option Nat
  gt : Option Nat
  gte : Option Nat
deriving DecidableEq

/-- `validate.EnumRules` (decoded subset). -/
structure EnumRules where
  not_in : List Int
deriving DecidableEq

/-- `validate.FieldRules`: the per-type rule union (`enumRules` embeds
`r#enum`). -/
structure FieldRules where
  message : Option MessageRules
  int32 : Option Int32Rules
  uint32 : Option UInt32Rules
  uint64 : Option UInt64Rules
  string : Option StringRules
  enumRules : Option EnumRules
deriving DecidableEq

/-- `FieldOptions` carrying the `validate.rules` extension. -/
structure FieldOptions where
  rules : Option FieldRules
deriving DecidableEq

/-- `FieldDescriptorProto` (decoded subset); `type` embeds `r#type`. -/
structure FieldDescriptorProto where
  name : Option String
  type : Option Int
  type_name : Option String
  options : Option FieldOptions
deriving DecidableEq

/-- `discover.rs::FieldConstraint`. -/
structure FieldConstraint where
  field : String
  min : Option Nat
  max : Option Nat
  pattern : Option String
  enum_values : List String
  required : Bool
  is_uuid : Bool
  is_numeric : Bool
  signed_min : Option Int
  signed_max : Option Int
deriving DecidableEq

/-- `const JSON_SAFE_INT_MAX: u64 = 9_007_199_254_740_991` (2^53 - 1). -/
def JSON_SAFE_INT_MAX : Nat := 9007199254740991

/-- `u64::MAX`. -/
def U64_MAX : Nat := 18446744073709551615

/-- `i64::MAX`. -/
def I64_MAX : Int := 9223372036854775807

/-- `i64::MIN`. -/
def I64_MIN : Int := -9223372036854775808

/-- `i64::saturating_add(1)`. -/
def i64SatAdd1 (v : Int) : Int := min (v + 1) I64_MAX

/-- `i64::saturating_sub(1)`. -/
def i64SatSub1 (v : Int) : Int := max (v - 1) I64_MIN

/-- `u64::saturating_add(1)`. -/
def u64SatAdd1 (v : Nat) : Nat := min (v + 1) U64_MAX

/-- `u64::saturating_sub(1)` (truncated `Nat` subtraction saturates at 0
exactly like the Rust operation). -/
def u64SatSub1 (v : Nat) : Nat := v - 1

/-- `Option::or`. -/
def optOr {α : Type} (a b : Option α) : Option α :=
  match a with
  | some x => some x
  | none => b

/-- `discover.rs::snake_to_lower_camel`, char by char with a
capitalize-next flag. -/
def snakeToLowerCamelAux : Bool → List Char → List Char
  | _, [] => []
  | capNext, c :: rest =>
    if c = '_' then snakeToLowerCamelAux true rest
    else if capNext then c.toUpper :: snakeToLowerCamelAux false rest
    else c :: snakeToLowerCamelAux false rest

/-- `discover.rs::snake_to_lower_camel`. -/
def snake_to_lower_camel (s : String) : String :=
  (snakeToLowerCamelAux false s.toList).asString

/-- Inclusive minimum derived from uint64 rules (`gte` or `gt + 1`,
saturating). -/
def u64DerivedMin (ur : UInt64Rules) : Option Nat :=
  optOr ur.gte (ur.gt.map u64SatAdd1)

/-- Inclusive maximum derived from uint64 rules (`lte` or `lt - 1`,
saturating). -/
def u64DerivedMax (ur : UInt64Rules) : Option Nat :=
  optOr ur.lte (ur.lt.map u64SatSub1)

/-- `discover.rs::field_to_constraint`: translate one field's
`validate.rules` into at most one `FieldConstraint`, trying the rule
shapes in source order (string, int32, uint32, uint64, enum,
message-required only). -/
def field_to_constraint (field : FieldDescriptorProto) : Option FieldConstraint :=
  match field.options with
  | none => none
  | some opts =>
  match opts.rules with
  | none => none
  | some rules =>
    let camelName := snake_to_lower_camel (field.name.getD "")
    let fieldTypeId := field.type.getD 0
    let msgRequired := (rules.message.bind (fun m => m.required)).getD false
    let stringBlock : Option FieldConstraint :=
      match rules.string with
      | some sr =>
        let hasContent := sr.min_len.isSome || sr.max_len.isSome || sr.pattern.isSome
          || !sr.inVals.isEmpty || sr.uuid.getD false
        if hasContent || msgRequired then
          let impliedRequired := decide (1 ≤ sr.min_len.getD 0) || !sr.inVals.isEmpty
          some { field := camelName, min := sr.min_len, max := sr.max_len,
                 signed_min := none, signed_max := none, pattern := sr.pattern,
                 enum_values := sr.inVals, required := msgRequired || impliedRequired,
                 is_uuid := sr.uuid.getD false, is_numeric := false }
        else none
      | none => none
    let int32Block : Option FieldConstraint :=
      match rules.int32 with
      | some ir =>
        let mn := optOr ir.gte (ir.gt.map i64SatAdd1)
        let mx := optOr ir.lte (ir.lt.map i64SatSub1)
        if mn.isSome || mx.isSome then
          some { field := camelName, min := none, max := none,
                 signed_min := mn, signed_max := mx, pattern := none,
                 enum_values := [], required := msgRequired,
                 is_uuid := false, is_numeric := true }
        else none
      | none => none
    let uint32Block : Option FieldConstraint :=
      match rules.uint32 with
      | some ur =>
        let mn := optOr ur.gte (ur.gt.map u64SatAdd1)
        let mx := optOr ur.lte (ur.lt.map u64SatSub1)
        if mn.isSome || mx.isSome then
          some { field := camelName, min := mn, max := mx,
                 signed_min := none, signed_max := none, pattern := none,
                 enum_values := [], required := msgRequired,
                 is_uuid := false, is_numeric := true }
        else none
      | none => none
    let uint64Block : Option FieldConstraint :=
      match rules.uint64 with
      | some ur =>
        let mn := u64DerivedMin ur
        let mx := u64DerivedMax ur
        let minVal := mn.getD 0
        let fitsInJson := match mx with
          | some m => decide (m ≤ JSON_SAFE_INT_MAX)
          | none => false
        if fitsInJson || msgRequired then
          some { field := camelName,
                 min := if fitsInJson && decide (0 < minVal) then some minVal else none,
                 max := if fitsInJson then mx else none,
                 signed_min := none, signed_max := none, pattern := none,
                 enum_values := [], required := msgRequired,
                 is_uuid := false, is_numeric := fitsInJson }
        else none
      | none => none
    let enumBlock : Option FieldConstraint :=
      match rules.enumRules with
      | some er =>
        let enumRequired := er.not_in.contains 0
        if enumRequired || msgRequired then
          some { field := camelName, min := none, max := none,
                 signed_min := none, signed_max := none, pattern := none,
                 enum_values := [], required := enumRequired || msgRequired,
                 is_uuid := false, is_numeric := false }
        else none
      | none => none
    let messageBlock : Option FieldConstraint :=
      if msgRequired then
        let isUuid := decide (fieldTypeId = 11)
          && (field.type_name.map (fun t => t.endsWith ".UUID")).getD false
        some { field := camelName, min := none, max := none,
               signed_min := none, signed_max := none, pattern := none,
               enum_values := [], required := true,
               is_uuid := isUuid, is_numeric := false }
      else none
    optOr stringBlock (optOr int32Block (optOr uint32Block
      (optOr uint64Block (optOr enumBlock messageBlock))))

/-- A field descriptor carrying only the given validation rules
(named `f`, no proto type information). -/
def mkRuleField (rules : FieldRules) : FieldDescriptorProto :=
  { name := some "f", type := none, type_name := none,
    options := some { rules := some rules } }

/-- A `FieldRules` with only int32 rules. -/
def onlyInt32 (ir : Int32Rules) : FieldRules :=
  { message := none, int32 := some ir, uint32 := none, uint64 := none,
    string := none, enumRules := none }

/-- A `FieldRules` with only uint32 rules. -/
def onlyUInt32 (ur : UInt32Rules) : FieldRules :=
  { message := none, int32 := none, uint32 := some ur, uint64 := none,
    string := none, enumRules := none }

/-- A `FieldRules` with only uint64 rules. -/
def onlyUInt64 (ur : UInt64Rules) : FieldRules :=
  { message := none, int32 := none, uint32 := none, uint64 := some ur,
    string := none, enumRules := none }

/-- The uint64 rule `gte: 5` with no upper bound. -/
def u64gte5 : UInt64Rules := { lt := none, lte := none, gt := none, gte := some 5 }

/-!
## Enum prefix detection and rewrites (`discover.rs::extract_enum_rewrites`)

Enum value identifiers are ASCII `UPPER_SNAKE` names, so Rust byte indexing
coincides with character indexing; value names are embedded as `List Char`
and `to_lowercase` as a character-wise `Char.toLower` map.
-/

/-- `EnumValueDescriptorProto` (decoded subset). -/
structure EnumValueDescriptorProto where
  name : Option (List Char)
  number : Option Int

/-- `EnumDescriptorProto` (decoded subset). -/
structure EnumDescriptorProto where
  name : Option String
  value : List EnumValueDescriptorProto

/-- `DescriptorProto`: message name, fields and nested messages. -/
inductive DescriptorProto where
  | mk (name : Option String) (field : List FieldDescriptorProto)
       (nested_type : List DescriptorProto)

/-- `FileDescriptorProto` (decoded subset). -/
structure FileDescriptorProto where
  package : Option String
  message_type : List DescriptorProto
  enum_type : List EnumDescriptorProto

/-- `FileDescriptorSet`. -/
structure FileDescriptorSet where
  file : List FileDescriptorProto

/-- `discover.rs::EnumRewrite`. -/
structure EnumRewrite where
  schema : String
  field : String
  values : List (List Char)
deriving DecidableEq

/-- The declared value names of an enum, in declaration order. -/
def enumValueNames (e : EnumDescriptorProto) : List (List Char) :=
  e.value.filterMap (fun v => v.name)

/-- `str::rfind('_')`: index of the last underscore. -/
def lastUnderscoreIdx : List Char → Option Nat
  | [] => none
  | c :: rest =>
    match lastUnderscoreIdx rest with
    | some j => some (j + 1)
    | none => if c = '_' then some 0 else none

/-- Length of the longest common prefix of `first` with every element of
`rest` (the `char_indices().find(..)` scan in `detect_enum_prefix`). -/
def commonPrefixLen (first : List Char) (rest : List (List Char)) : Nat :=
  ((List.range first.length).find? (fun i =>
    rest.any (fun v => !(first.take (i + 1)).isPrefixOf v))).getD first.length

/-- `discover.rs::detect_enum_prefix`: the common prefix cut back to its
last underscore, required to be at least 3 characters long. -/
def detectEnumPrefix (values : List (List Char)) : Option (List Char) :=
  match values with
  | [] => none
  | first :: rest =>
    let common := first.take (commonPrefixLen first rest)
    match lastUnderscoreIdx common with
    | none => none
    | some j =>
      let p := first.take (j + 1)
      if p.length < 3 then none else some p

/-- One iteration of the first loop of `extract_enum_rewrites`: the
`(fqn, prefix, stripped values)` entry for one enum, when its values share
a detected prefix. -/
def perEnumEntry (pkg : String) (e : EnumDescriptorProto) :
    Option (String × List Char × List (List Char)) :=
  let fqn := "." ++ pkg ++ "." ++ e.name.getD ""
  let values := enumValueNames e
  match detectEnumPrefix values with
  | none => none
  | some p =>
    if values.all (fun v => p.isPrefixOf v) then
      some (fqn, p, values.map (fun v => (v.drop p.length).map Char.toLower))
    else none

/-- The `prefix_enums` list of `extract_enum_rewrites`. -/
def prefixEnumsOf (fdset : FileDescriptorSet) :
    List (String × List Char × List (List Char)) :=
  fdset.file.flatMap (fun f => f.enum_type.filterMap (perEnumEntry (f.package.getD "")))

mutual

/-- `discover.rs::collect_enum_rewrite_fields`: scan messages (recursing
into nested messages) for enum-typed fields (`type = 14`) referencing a
prefix-stripped enum. -/
def collectEnumRewriteFields (parentPath : String) (messages : List DescriptorProto)
    (pe : List (String × List Char × List (List Char))) : List EnumRewrite :=
  match messages with
  | [] => []
  | msg :: rest =>
    collectEnumRewriteMsg parentPath msg pe ++ collectEnumRewriteFields parentPath rest pe

/-- Per-message part of `collect_enum_rewrite_fields`: the field rewrites
of one message followed by those of its nested messages. -/
def collectEnumRewriteMsg (parentPath : String) (msg : DescriptorProto)
    (pe : List (String × List Char × List (List Char))) : List EnumRewrite :=
  match msg with
  | .mk nameOpt fields nested =>
    let schema := parentPath ++ "." ++ nameOpt.getD ""
    (fields.filterMap (fun f =>
      if f.type = some 14 then
        match f.type_name with
        | none => none
        | some tn =>
          match pe.find? (fun entry => entry.1 == tn) with
          | some entry => some { schema := schema,
                                 field := snake_to_lower_camel (f.name.getD ""),
                                 values := entry.2.2 }
          | none => none
      else none))
    ++ collectEnumRewriteFields schema nested pe

end

/-- The raw-to-stripped global value map of `extract_enum_rewrites`. -/
def enumValueMapOf (fdset : FileDescriptorSet) : List (List Char × List Char) :=
  fdset.file.flatMap (fun f => f.enum_type.flatMap (fun e =>
    let values := enumValueNames e
    match detectEnumPrefix values with
    | none => []
    | some p => values.filterMap (fun raw =>
        if p.isPrefixOf raw then some (raw, (raw.drop p.length).map Char.toLower)
        else none)))

/-- `discover.rs::extract_enum_rewrites`. -/
def extract_enum_rewrites (fdset : FileDescriptorSet) :
    List EnumRewrite × List (List Char × List Char) :=
  let pe := prefixEnumsOf fdset
  if pe.isEmpty then ([], [])
  else
    (fdset.file.flatMap (fun f =>
       collectEnumRewriteFields (f.package.getD "") f.message_type pe),
     enumValueMapOf fdset)

/-- Specification-side predicate: `q` is an underscore-terminated common
prefix of at least 3 characters shared by every value name. -/
def SharedUnderscorePfxOf (values : List (List Char)) (q : List Char) : Prop :=
  3 ≤ q.length ∧ q.getLast? = some '_' ∧ ∀ v ∈ values, q <+: v

/-- Specification-side predicate: the (nonempty) value-name list shares
some underscore-terminated prefix of at least 3 characters. -/
def HasSharedUnderscorePfx (values : List (List Char)) : Prop :=
  values ≠ [] ∧ ∃ q, SharedUnderscorePfxOf values q

/-- Concrete enum used by the enum-rewrite witness. -/
def enumE0 : EnumDescriptorProto :=
  { name := some "Status",
    value := [{ name := some "STATUS_UNSPECIFIED".toList, number := some 0 },
              { name := some "STATUS_HEALTHY".toList, number := some 1 }] }

/-- Concrete descriptor set used by the enum-rewrite witness: one enum
with a shared `STATUS_` prefix and one message field referencing it. -/
def enumFdset0 : FileDescriptorSet :=
  { file := [{ package := some "auth.v1",
               message_type := [DescriptorProto.mk (some "HealthResponse")
                 [{ name := some "status", type := some 14,
                    type_name := some ".auth.v1.Status", options := none }] []],
               enum_type := [enumE0] }] }

/-- The rewrite entry discovered from `enumFdset0`. -/
def enumRw0 : EnumRewrite :=
  { schema := "auth.v1.HealthResponse", field := "status",
    values := ["unspecified".toList, "healthy".toList] }

/-!
## Patch pipeline error structure (`patch/mod.rs::patch`)

After the input document parses, `patch()` resolves the three configured
method-name lists (the single `?` besides the initial parse and the final
serialization) and then applies the transform phases, each of which is a
Rust function of type `(&mut Value, ...) -> ()` — a total document
transform. The phase block is therefore abstracted below as an arbitrary
total function applied to the resolved operation lists and the document;
final serialization of a `Value` tree is modelled as total.
-/

/-- The resolution-relevant subset of `patch/mod.rs::PatchConfig`:
the proto metadata (operation-id index) and the three deferred
method-name lists. -/
structure PatchConfigM where
  metadata : List OperationEntry
  unimplemented_method_names : List String
  public_method_names : List String
  deprecated_method_names : List String

/-- `PatchConfig::resolve_method_list`: empty list short-circuits to ok. -/
def resolve_method_list (md : List OperationEntry) (names : List String) :
    Except Error (List String) :=
  if names.isEmpty then .ok [] else resolve_operation_ids md names

/-- `PatchConfig::resolved_ops`: resolve the three deferred lists in
order, failing on the first unresolvable name. -/
def resolved_ops (cfg : PatchConfigM) :
    Except Error (List String × List String × List String) := do
  let unimplemented ← resolve_method_list cfg.metadata cfg.unimplemented_method_names
  let publicOps ← resolve_method_list cfg.metadata cfg.public_method_names
  let deprecated ← resolve_method_list cfg.metadata cfg.deprecated_method_names
  return (unimplemented, publicOps, deprecated)

/-- The post-parse body of `patch()`: resolve the configured method-name
lists, then apply the (total) phase block to the document. -/
def patchAfterParse
    (phases : (List String × List String × List String) → Yaml → Yaml)
    (cfg : PatchConfigM) (doc : Yaml) : Except Error Yaml :=
  match resolved_ops cfg with
  | .error e => .error e
  | .ok ops => .ok (phases ops doc)

/-- Witness configuration whose three lists all resolve. -/
def patchCfg0 : PatchConfigM :=
  { metadata := resolverMd0, unimplemented_method_names := ["Authenticate"],
    public_method_names := [], deprecated_method_names := [] }

/-- Witness configuration with an unresolvable public method name. -/
def patchCfg1 : PatchConfigM :=
  { metadata := resolverMd0, unimplemented_method_names := [],
    public_method_names := ["Nope"], deprecated_method_names := [] }

/-!
## Orphan schema pruning (`patch/cleanup.rs::remove_orphaned_schemas`)

The Rust worklist uses `HashSet`s for the reachable set and collected
reference sets; iteration order over a hash set is unspecified, so sets
are embedded as lists and every stated property is membership-level. The
worklist is given explicit fuel `|initial frontier| + |dependency
universe|`, shown below to dominate the loop's termination measure, so
the fuelled loop never runs out before the frontier empties.
-/

mutual

/-- `helpers.rs::collect_refs`: every string found under a `$ref` mapping
key, anywhere in the value tree. -/
def collectRefs : Yaml → List String
  | .ymap entries => collectRefsEntries entries
  | .yseq items => collectRefsItems items
  | _ => []

/-- `collect_refs` over the entries of a mapping: record the value of a
`$ref` key when it is a string, then recurse into the value. -/
def collectRefsEntries : List (Yaml × Yaml) → List String
  | [] => []
  | (k, v) :: rest =>
    (if keyIs k "$ref" then (v.asStr.map (fun s => [s])).getD [] else [])
      ++ collectRefs v ++ collectRefsEntries rest

/-- `collect_refs` over the items of a sequence. -/
def collectRefsItems : List Yaml → List String
  | [] => []
  | x :: rest => collectRefs x ++ collectRefsItems rest

end

/-- The `"#/components/schemas/"` reference root. -/
def schemasRefRoot : String := "#/components/schemas/"

/-- `str::strip_prefix("#/components/schemas/")`. -/
def stripSchemaRef (r : String) : Option String :=
  if schemasRefRoot.isPrefixOf r then some (r.drop schemasRefRoot.length) else none

/-- Modelled from the spec: the `schemas`/`schemas_mut` accessors imported
by `cleanup.rs` from `patch/helpers.rs` are not present in the provided
helper source; per the spec's named-schema registry they access the
`components.schemas` mapping, the same access path written out in
`collect_empty_schema_names`. -/
def schemasOf (doc : Yaml) : Option (List (Yaml × Yaml)) :=
  ((((doc.asMap.bind (fun root => mget root "components")).bind
      Yaml.asMap).bind (fun cm => mget cm "schemas")).bind Yaml.asMap)

/-- In-place rewrite of the `schemas` value when it is a mapping. -/
def updSchemasInner (f : List (Yaml × Yaml) → List (Yaml × Yaml)) (sch : Yaml) : Yaml :=
  match sch with
  | .ymap entries => .ymap (f entries)
  | other => other

/-- In-place rewrite of `components.schemas` within the `components`
value when it is a mapping. -/
def updComponentsSchemas (f : List (Yaml × Yaml) → List (Yaml × Yaml)) (comp : Yaml) : Yaml :=
  match comp with
  | .ymap cm => .ymap (mUpdateFirst cm "schemas" (updSchemasInner f))
  | other => other

/-- The mutation through `schemas_mut`: rewrite the `components.schemas`
mapping in place when the access path exists. -/
def updateSchemas (doc : Yaml) (f : List (Yaml × Yaml) → List (Yaml × Yaml)) : Yaml :=
  match doc with
  | .ymap root => .ymap (mUpdateFirst root "components" (updComponentsSchemas f))
  | other => other

/-- The string keys of the named-schema registry. -/
def schemaNames (doc : Yaml) : List String :=
  ((schemasOf doc).getD []).filterMap (fun kv => kv.1.asStr)

/-- The `$ref`s contributed by one root entry of the document: for the
`components` entry, walk every sub-entry except `schemas`; for any other
entry, walk the whole value. -/
def extRefsOfEntry (kv : Yaml × Yaml) : List String :=
  if keyIs kv.1 "components" then
    match kv.2.asMap with
    | none => []
    | some comp =>
      (comp.filter (fun ckv => !keyIs ckv.1 "schemas")).foldr
        (fun ckv acc2 => collectRefs ckv.2 ++ acc2) []
  else collectRefs kv.2

/-- `cleanup.rs::collect_external_schema_refs`: every `$ref` in the
document except those under `components.schemas`. -/
def collect_external_schema_refs (doc : Yaml) : List String :=
  match doc.asMap with
  | none => []
  | some root => root.foldr (fun kv acc => extRefsOfEntry kv ++ acc) []

/-- The inner loop of the worklist step: for each collected reference,
strip the schema-ref root and, when the name is new, add it to the
reachable set and push it on the frontier (`reachable.insert` +
`frontier.push`). -/
def processRefs : List String → List String × List String → List String × List String
  | [], acc => acc
  | r :: rest, (reach, front) =>
    match stripSchemaRef r with
    | none => processRefs rest (reach, front)
    | some dep =>
      if dep ∈ reach then processRefs rest (reach, front)
      else processRefs rest (dep :: reach, dep :: front)

/-- All schema names referenced from inside the snapshot's schema values:
a finite universe containing every name the worklist can ever insert. -/
def depUniverse (snap : List (Yaml × Yaml)) : List String :=
  snap.foldr (fun kv acc => (collectRefs kv.2).filterMap stripSchemaRef ++ acc) []

/-- The fuelled worklist of `remove_orphaned_schemas` step 3: pop a name,
look it up in the snapshot, and process the `$ref`s of its value. -/
def walkFuel (snap : List (Yaml × Yaml)) : Nat → List String → List String → List String
  | 0, reach, _ => reach
  | _ + 1, reach, [] => reach
  | fuel + 1, reach, name :: front =>
    match mget snap name with
    | none => walkFuel snap fuel reach front
    | some v =>
      let rf := processRefs (collectRefs v) (reach, front)
      walkFuel snap fuel rf.1 rf.2

/-- Steps 2 and 3 of `remove_orphaned_schemas`: the reachable set, seeded
with the externally referenced schema names and closed by the worklist
over the schema snapshot. -/
def reachableOf (doc : Yaml) : List String :=
  let reachable0 := (collect_external_schema_refs doc).filterMap stripSchemaRef
  let snapshot := (schemasOf doc).getD []
  walkFuel snapshot (reachable0.length + (depUniverse snapshot).length)
    reachable0 reachable0

/-- Step 4 of `remove_orphaned_schemas`: the named schemas never reached. -/
def orphansOf (doc : Yaml) : List String :=
  (schemaNames doc).filter (fun n => n ∉ reachableOf doc)

/-- `cleanup.rs::remove_orphaned_schemas`: seed the reachable set with the
externally referenced schema names, close it under `$ref`s inside
reachable schemas, and drop every named schema never reached. -/
def remove_orphaned_schemas (doc : Yaml) : Yaml :=
  if (schemaNames doc).isEmpty then doc
  else if (orphansOf doc).isEmpty then doc
  else updateSchemas doc (fun entries =>
    entries.filter (fun kv => !((orphansOf doc).any (fun m => keyIs kv.1 m))))

/-- Derivability within a schema snapshot: a name is derivable when it is
a root, or the stripped target of a `$ref` inside the value of a
derivable name. -/
inductive SchemaDeriv (snap : List (Yaml × Yaml)) (roots : List String) : String → Prop where
  | root (n : String) : n ∈ roots → SchemaDeriv snap roots n
  | step (m n : String) (v : Yaml) (r : String) :
      SchemaDeriv snap roots m → mget snap m = some v → r ∈ collectRefs v →
      stripSchemaRef r = some n → SchemaDeriv snap roots n

/-- The claim's reachability notion for a document: derivable from the
references occurring outside `components.schemas`, transitively through
`$ref`s inside the named-schema registry. -/
def SchemaReachable (doc : Yaml) (n : String) : Prop :=
  SchemaDeriv ((schemasOf doc).getD [])
    ((collect_external_schema_refs doc).filterMap stripSchemaRef) n

/-!
## Path-field stripping (`patch/validation.rs::strip_path_fields_from_body`)
-/

/-- Update the mapping stored under key `k` in place (the effect of a
`get_mut(k).and_then(as_mapping_mut)` chain). -/
def mUpdateMapValue (m : List (Yaml × Yaml)) (k : String)
    (f : List (Yaml × Yaml) → List (Yaml × Yaml)) : List (Yaml × Yaml) :=
  mUpdateFirst m k (fun v =>
    match v with
    | .ymap mm => .ymap (f mm)
    | other => other)

/-- The `components` value of the document. -/
def componentsOf (doc : Yaml) : Option Yaml :=
  doc.asMap.bind (fun r => mget r "components")

/-- The operation mapping at `paths.<p>.<m>`. -/
def opAt (doc : Yaml) (p m : String) : Option (List (Yaml × Yaml)) :=
  (((((doc.asMap.bind (fun r => mget r "paths")).bind Yaml.asMap).bind
    (fun pm2 => mget pm2 p)).bind Yaml.asMap).bind (fun pi => mget pi m)).bind
    Yaml.asMap

/-- The `requestBody.content.application/json.schema` slot value of an
operation mapping. -/
def bodySchemaOf (op : List (Yaml × Yaml)) : Option Yaml :=
  (((((mget op "requestBody").bind Yaml.asMap).bind
    (fun rb => mget rb "content")).bind Yaml.asMap).bind
    (fun c => mget c "application/json")).bind Yaml.asMap |>.bind
    (fun mt => mget mt "schema")

/-- The operation's body schema slot within the whole document. -/
def bodySchemaAt (doc : Yaml) (p m : String) : Option Yaml :=
  (opAt doc p m).bind bodySchemaOf

/-- `helpers.rs::request_body_ref`: the `$ref` string of the operation's
JSON request-body schema. -/
def requestBodyRef (op : List (Yaml × Yaml)) : Option String :=
  ((bodySchemaOf op).bind Yaml.asMap).bind (fun sm => mget sm "$ref") |>.bind
    Yaml.asStr

/-- A component schema by name (`components.schemas.<name>`). -/
def lookupSchema (doc : Yaml) (name : String) : Option Yaml :=
  (schemasOf doc).bind (fun sm => mget sm name)

/-- `snake_to_lower_camel_dotted` from `patch/helpers.rs`. -/
def snake_to_lower_camel_dotted (s : String) : String :=
  String.intercalate "." ((s.split (fun c => c = '.')).map snake_to_lower_camel)

/-- The camelized first dot-segment of a path parameter name
(`name.split('.').next()` then `snake_to_lower_camel_dotted`). -/
def parentFieldOf (name : String) : String :=
  snake_to_lower_camel_dotted (((name.split (fun c => c = '.')).headD ""))

/-- Phase-1 field collection of `strip_path_fields_from_body`: the
camelized parent field of every `in: path` parameter of the operation. -/
def pathFieldsOf (op : List (Yaml × Yaml)) : List String :=
  (((mget op "parameters").bind Yaml.asSeq).getD []).filterMap (fun prm =>
    match prm.asMap with
    | none => none
    | some pm2 =>
      match (mget pm2 "in").bind Yaml.asStr with
      | none => none
      | some inVal =>
        if inVal = "path" then
          match (mget pm2 "name").bind Yaml.asStr with
          | none => none
          | some nameVal => some (parentFieldOf nameVal)
        else none)

/-- `validation.rs` local `StripInfo`. -/
structure StripInfo where
  path : String
  method : String
  schema_ref : String
  fields_to_remove : List String
deriving DecidableEq

/-- Phase 1 of `strip_path_fields_from_body`: collect, for every
operation with path parameters and a referenced JSON body schema, its
location, reference and fields to remove. -/
def collectStripOps (doc : Yaml) : List StripInfo :=
  match ((doc.asMap.bind (fun r => mget r "paths")).bind Yaml.asMap) with
  | none => []
  | some paths =>
    paths.flatMap (fun pkv =>
      match pkv.1.asStr with
      | none => []
      | some pathStr =>
        match pkv.2.asMap with
        | none => []
        | some pathMap =>
          pathMap.filterMap (fun okv =>
            match okv.1.asStr with
            | none => none
            | some methodStr =>
              match okv.2.asMap with
              | none => none
              | some opMap =>
                let fields := pathFieldsOf opMap
                if fields.isEmpty then none
                else
                  match requestBodyRef opMap with
                  | none => none
                  | some ref => some ⟨pathStr, methodStr, ref, fields⟩))

/-- `str::trim_start_matches("#/components/schemas/")` with explicit fuel;
each strip consumes the 21-character root so `|s|` steps always suffice. -/
def trimSchemasRootAux : Nat → List Char → List Char
  | 0, s => s
  | fuel + 1, s =>
    if schemasRefRoot.toList.isPrefixOf s then
      trimSchemasRootAux fuel (s.drop schemasRefRoot.length)
    else s

/-- `info.schema_ref.trim_start_matches("#/components/schemas/")`. -/
def trimSchemasRoot (s : String) : String :=
  (trimSchemasRootAux s.toList.length s.toList).asString

/-- Phase-2 clone mutation of `strip_path_fields_from_body`: remove the
path-bound fields from the clone's `properties`, drop them from its
`required` list, and remove a `required` list emptied by that. -/
def stripSchemaFields (schema : Yaml) (fields : List String) : Yaml :=
  match schema with
  | .ymap sm =>
    let sm1 := mUpdateMapValue sm "properties" (fun props =>
      props.filter (fun kv => !(fields.any (fun f => keyIs kv.1 f))))
    let sm2 := mUpdateFirst sm1 "required" (fun req =>
      match req with
      | .yseq items => .yseq (items.filter (fun v =>
          match v.asStr with
          | none => true
          | some s2 => !(fields.any (fun f => f == s2))))
      | other => other)
    let sm3 := match mget sm2 "required" with
      | some (.yseq items) =>
        if items.isEmpty then sm2.filter (fun kv => !keyIs kv.1 "required") else sm2
      | _ => sm2
    .ymap sm3
  | other => other

/-- The phase-2 write: replace the operation's body schema slot (through
the same `get_mut`/`as_mapping_mut` chain as the source; any missing or
non-mapping step leaves the document unchanged). -/
def writeBodySchema (doc : Yaml) (p m : String) (s : Yaml) : Yaml :=
  match doc with
  | .ymap root =>
    .ymap (mUpdateMapValue root "paths" (fun paths =>
      mUpdateMapValue paths p (fun pitem =>
        mUpdateMapValue pitem m (fun op =>
          mUpdateMapValue op "requestBody" (fun rb =>
            mUpdateMapValue rb "content" (fun content =>
              mUpdateMapValue content "application/json" (fun mt =>
                mUpdateFirst mt "schema" (fun _ => s))))))))
  | other => other

/-- One phase-2 iteration: clone the referenced component schema from the
current document, strip the fields, and substitute it into the
operation's schema slot. -/
def stripStep (d : Yaml) (info : StripInfo) : Yaml :=
  match lookupSchema d (trimSchemasRoot info.schema_ref) with
  | none => d
  | some sch =>
    writeBodySchema d info.path info.method
      (stripSchemaFields sch info.fields_to_remove)

/-- `validation.rs::strip_path_fields_from_body`. -/
def strip_path_fields_from_body (doc : Yaml) : Yaml :=
  let infos := collectStripOps doc
  if infos.isEmpty then doc else infos.foldl stripStep doc

/-- The entries of the `paths` mapping. -/
def pathsMapOf (doc : Yaml) : List (Yaml × Yaml) :=
  ((doc.asMap.bind (fun r => mget r "paths")).bind Yaml.asMap).getD []

/-- The string keys of the `paths` mapping. -/
def pathKeysOf (doc : Yaml) : List String :=
  (pathsMapOf doc).filterMap (fun kv => kv.1.asStr)

/-- A concrete `parameters` list with one path parameter `item_id`. -/
def stripParams0 : Yaml :=
  .yseq [.ymap [(.ystr "name", .ystr "item_id"), (.ystr "in", .ystr "path")]]

/-- A concrete request body referencing the shared `Item` schema. -/
def stripBody0 : Yaml :=
  .ymap [(.ystr "content", .ymap [(.ystr "application/json",
    .ymap [(.ystr "schema",
      .ymap [(.ystr "$ref", .ystr "#/components/schemas/Item")])])])]

/-- A concrete operation with a path parameter and a `$ref` body. -/
def stripOp0 : List (Yaml × Yaml) :=
  [(.ystr "parameters", stripParams0), (.ystr "requestBody", stripBody0)]

/-- A concrete operation without path parameters sharing the same body. -/
def stripOp1 : List (Yaml × Yaml) :=
  [(.ystr "requestBody", stripBody0)]

/-- The shared `Item` component schema of the concrete document. -/
def itemSchema0 : Yaml :=
  .ymap [(.ystr "properties", .ymap
      [(.ystr "itemId", .ymap [(.ystr "type", .ystr "string")]),
       (.ystr "name", .ymap [(.ystr "type", .ystr "string")])]),
    (.ystr "required", .yseq [.ystr "itemId", .ystr "name"])]

/-- A concrete OpenAPI document with one path-parameterised operation and
one plain operation, both referencing the shared `Item` schema. -/
def stripDoc0 : Yaml :=
  .ymap [
    (.ystr "paths", .ymap [
      (.ystr "/v1/items/one", .ymap [(.ystr "post", .ymap stripOp0)]),
      (.ystr "/v1/items", .ymap [(.ystr "post", .ymap stripOp1)])]),
    (.ystr "components", .ymap [(.ystr "schemas",
      .ymap [(.ystr "Item", itemSchema0)])])]

/-! ## Mapping lemmas -/

theorem mget_mUpdateFirst_self (m : List (Yaml × Yaml)) (k : String) (f : Yaml → Yaml) :
    mget (mUpdateFirst m k f) k = (mget m k).map f := by
  induction m with
  | nil => rfl
  | cons kv rest ih =>
    obtain ⟨key, v⟩ := kv
    by_cases h : keyIs key k
    · simp [mUpdateFirst, mget, h]
    · simp [mUpdateFirst, mget, h, ih]

theorem mget_mUpdateFirst_ne (m : List (Yaml × Yaml)) (k k2 : String) (f : Yaml → Yaml)
    (h : k ≠ k2) : mget (mUpdateFirst m k f) k2 = mget m k2 := by
  induction m with
  | nil => rfl
  | cons kv rest ih =>
    obtain ⟨key, v⟩ := kv
    cases key with
    | ystr s =>
      by_cases hs : s = k
      · subst hs
        simp [mUpdateFirst, mget, keyIs, h]
      · by_cases hs2 : s = k2
        · subst hs2
          simp [mUpdateFirst, mget, keyIs, hs]
        · simp [mUpdateFirst, mget, keyIs, hs, hs2, ih]
    | ynum n => simp [mUpdateFirst, mget, keyIs, ih]
    | ybool b => simp [mUpdateFirst, mget, keyIs, ih]
    | ynull => simp [mUpdateFirst, mget, keyIs, ih]
    | yseq s => simp [mUpdateFirst, mget, keyIs, ih]
    | ymap mm => simp [mUpdateFirst, mget, keyIs, ih]

theorem mUpdateFirst_not_contains (m : List (Yaml × Yaml)) (k : String) (f : Yaml → Yaml)
    (h : mcontains m k = false) : mUpdateFirst m k f = m := by
  induction m with
  | nil => rfl
  | cons kv rest ih =>
    obtain ⟨key, v⟩ := kv
    by_cases hk : keyIs key k
    · simp [mcontains, mget, hk] at h
    · simp [mcontains, mget, hk] at h
      simp [mUpdateFirst, hk, ih (by simp [mcontains, h])]

theorem mget_append (m1 m2 : List (Yaml × Yaml)) (k : String) :
    mget (m1 ++ m2) k = match mget m1 k with
      | some v => some v
      | none => mget m2 k := by
  induction m1 with
  | nil => rfl
  | cons kv rest ih =>
    obtain ⟨key, v⟩ := kv
    by_cases hk : keyIs key k <;> simp [mget, hk, ih]

theorem mget_mEntryOrInsert_self (m : List (Yaml × Yaml)) (k : String) (d : Yaml) :
    mget (mEntryOrInsert m k d) k = some ((mget m k).getD d) := by
  unfold mEntryOrInsert
  by_cases h : mcontains m k
  · obtain ⟨v, hv⟩ := Option.isSome_iff_exists.mp (by simpa [mcontains] using h)
    simp [h, hv]
  · have hnone : mget m k = none :=
      Option.not_isSome_iff_eq_none.mp (by simpa [mcontains] using h)
    simp [h, mget_append, hnone, mget, keyIs]

theorem mget_mEntryOrInsert_ne (m : List (Yaml × Yaml)) (k k2 : String) (d : Yaml)
    (h : k ≠ k2) : mget (mEntryOrInsert m k d) k2 = mget m k2 := by
  unfold mEntryOrInsert
  by_cases hc : mcontains m k
  · simp [hc]
  · simp only [hc, Bool.false_eq_true, if_false, mget_append]
    cases hm : mget m k2 with
    | some v => simp
    | none => simp [mget, keyIs, h]

theorem mget_mInsert_ne (m : List (Yaml × Yaml)) (k k2 : String) (v : Yaml)
    (h : k ≠ k2) : mget (mInsert m k v) k2 = mget m k2 := by
  unfold mInsert
  by_cases hc : mcontains m k
  · simp [hc, mget_mUpdateFirst_ne m k k2 _ h]
  · simp only [hc, Bool.false_eq_true, if_false, mget_append]
    cases hm : mget m k2 with
    | some w => simp
    | none => simp [mget, keyIs, h]

/-! ## Security transform: lemmas and claim theorems -/

theorem rootSecurityVal_addBearerScheme (d : Yaml) (desc : String) :
    rootSecurityVal (addBearerScheme d desc) = rootSecurityVal d := by
  cases d with
  | ymap root =>
    simp [addBearerScheme, rootSecurityVal, Yaml.asMap,
      mget_mUpdateFirst_ne _ "components" "security" _ (by decide)]
  | ystr s => rfl
  | ynum n => rfl
  | ybool b => rfl
  | ynull => rfl
  | yseq s => rfl

theorem rootSecurityVal_overridePublicOps (d : Yaml) (ops : List String) :
    rootSecurityVal (overridePublicOps d ops) = rootSecurityVal d := by
  cases d with
  | ymap root =>
    simp [overridePublicOps, forEachOperation, rootSecurityVal, Yaml.asMap,
      mget_mUpdateFirst_ne _ "paths" "security" _ (by decide)]
  | ystr s => rfl
  | ynum n => rfl
  | ybool b => rfl
  | ynull => rfl
  | yseq s => rfl

theorem rootSecurityVal_addBearerRequirement (root : List (Yaml × Yaml)) :
    rootSecurityVal (addBearerRequirement (.ymap root))
      = some (updSecurity ((mget root "security").getD (.yseq []))) := by
  simp [addBearerRequirement, rootSecurityVal, Yaml.asMap,
    mget_mUpdateFirst_self, mget_mEntryOrInsert_self]

/-- `updSecurity` is idempotent: a second pass sees the bearer item. -/
theorem updSecurity_idem (v : Yaml) : updSecurity (updSecurity v) = updSecurity v := by
  cases v with
  | yseq s =>
    by_cases h : hasBearerItem s
    · simp [updSecurity, h]
    · have : hasBearerItem (s ++ [bearerRequirement]) = true := by
        simp [hasBearerItem, bearerRequirement]
        right
        simp [mcontains, mget, keyIs]
      simp [updSecurity, h, this]
  | ystr s => rfl
  | ynum n => rfl
  | ybool b => rfl
  | ynull => rfl
  | ymap m => rfl

theorem addBearerScheme_shape (root : List (Yaml × Yaml)) (desc : String) :
    ∃ root2, addBearerScheme (.ymap root) desc = .ymap root2 := by
  simp [addBearerScheme]

theorem addBearerRequirement_shape (root : List (Yaml × Yaml)) :
    ∃ root2, addBearerRequirement (.ymap root) = .ymap root2 := by
  simp [addBearerRequirement]

theorem overridePublicOps_shape (root : List (Yaml × Yaml)) (ops : List String) :
    ∃ root2, overridePublicOps (.ymap root) ops = .ymap root2 := by
  simp [overridePublicOps, forEachOperation]

theorem add_security_schemes_not_map (d : Yaml) (ops : List String) (desc : Option String)
    (h : d.asMap = none) : add_security_schemes d ops desc = d := by
  cases d <;> simp_all [Yaml.asMap] <;> rfl

theorem rootSecurityVal_add_security_schemes (root : List (Yaml × Yaml))
    (ops : List String) (desc : Option String) :
    rootSecurityVal (add_security_schemes (.ymap root) ops desc)
      = some (updSecurity ((mget root "security").getD (.yseq []))) := by
  unfold add_security_schemes
  obtain ⟨root2, h2⟩ := addBearerScheme_shape root (desc.getD "Bearer authentication token")
  rw [rootSecurityVal_overridePublicOps, h2, rootSecurityVal_addBearerRequirement]
  have := rootSecurityVal_addBearerScheme (.ymap root) (desc.getD "Bearer authentication token")
  rw [h2] at this
  simp [rootSecurityVal, Yaml.asMap] at this
  rw [this]


theorem schemeLookup_overridePublicOps (d : Yaml) (ops : List String) (k : String) :
    schemeLookup (overridePublicOps d ops) k = schemeLookup d k := by
  cases d with
  | ymap root =>
    simp [overridePublicOps, forEachOperation, schemeLookup, Yaml.asMap,
      mget_mUpdateFirst_ne _ "paths" "components" _ (by decide)]
  | ystr s => rfl
  | ynum n => rfl
  | ybool b => rfl
  | ynull => rfl
  | yseq s => rfl

theorem schemeLookup_addBearerRequirement (d : Yaml) (k : String) :
    schemeLookup (addBearerRequirement d) k = schemeLookup d k := by
  cases d with
  | ymap root =>
    simp [addBearerRequirement, schemeLookup, Yaml.asMap,
      mget_mUpdateFirst_ne _ "security" "components" _ (by decide),
      mget_mEntryOrInsert_ne _ "security" "components" _ (by decide)]
  | ystr s => rfl
  | ynum n => rfl
  | ybool b => rfl
  | ynull => rfl
  | yseq s => rfl

theorem schemeLookup_updSchemes_ne (schemes : Yaml) (desc : String) (k : String)
    (h : k ≠ "bearerAuth") :
    (updSchemes desc schemes).asMap.bind (fun sm => mget sm k)
      = schemes.asMap.bind (fun sm => mget sm k) := by
  cases schemes with
  | ymap sm =>
    simp only [updSchemes, Yaml.asMap, Option.some_bind]
    exact mget_mInsert_ne sm "bearerAuth" k _ (Ne.symm h)
  | ystr s => rfl
  | ynum n => rfl
  | ybool b => rfl
  | ynull => rfl
  | yseq s => rfl

theorem schemeLookup_updComponents_ne (comp : Yaml) (desc : String) (k : String)
    (h : k ≠ "bearerAuth") :
    ((updComponents desc comp).asMap.bind (fun cm => mget cm "securitySchemes")).bind
        (fun s => s.asMap.bind (fun sm => mget sm k))
      = (comp.asMap.bind (fun cm => mget cm "securitySchemes")).bind
        (fun s => s.asMap.bind (fun sm => mget sm k)) := by
  cases comp with
  | ymap cm =>
    simp only [updComponents, Yaml.asMap, Option.some_bind]
    rw [mget_mUpdateFirst_self, mget_mEntryOrInsert_self]
    cases hsch : mget cm "securitySchemes" with
    | none =>
      simp [updSchemes, mInsert, mcontains, mget, keyIs, Ne.symm h, Yaml.asMap]
    | some schemes =>
      simp only [Option.getD_some, Option.map_some', Option.some_bind]
      exact schemeLookup_updSchemes_ne schemes desc k h
  | ystr s => rfl
  | ynum n => rfl
  | ybool b => rfl
  | ynull => rfl
  | yseq s => rfl

theorem schemeLookup_addBearerScheme_ne (d : Yaml) (desc : String) (k : String)
    (h : k ≠ "bearerAuth") :
    schemeLookup (addBearerScheme d desc) k = schemeLookup d k := by
  cases d with
  | ymap root =>
    simp only [addBearerScheme, schemeLookup, Yaml.asMap, Option.some_bind]
    rw [mget_mUpdateFirst_self]
    cases hcomp : mget root "components" with
    | none => rfl
    | some comp =>
      simp only [Option.map_some', Option.some_bind]
      have := schemeLookup_updComponents_ne comp desc k h
      simpa [Option.bind_assoc] using this
  | ystr s => rfl
  | ynum n => rfl
  | ybool b => rfl
  | ynull => rfl
  | yseq s => rfl

theorem securityList_eq_rootSecurityVal (d : Yaml) :
    securityList d = (rootSecurityVal d).bind Yaml.asSeq := rfl

theorem add_security_schemes_shape (root : List (Yaml × Yaml)) (ops : List String)
    (desc : Option String) :
    ∃ root3, add_security_schemes (.ymap root) ops desc = .ymap root3 := by
  simp only [add_security_schemes]
  obtain ⟨r1, h1⟩ := addBearerScheme_shape root (desc.getD "Bearer authentication token")
  rw [h1]
  obtain ⟨r2, h2⟩ := addBearerRequirement_shape r1
  rw [h2]
  exact overridePublicOps_shape r2 ops

/-- C7: applying the bearer-auth security transform twice produces the same
top-level security-requirement list as applying it once; the bearer
requirement is appended at most once to existing requirements, and
user-defined security schemes are preserved. -/
theorem add_security_schemes_idempotent (d : Yaml) (ops : List String) (desc : Option String) :
    securityList (add_security_schemes (add_security_schemes d ops desc) ops desc)
      = securityList (add_security_schemes d ops desc)
    ∧ (∀ s, securityList d = some s →
        securityList (add_security_schemes d ops desc)
          = some (if hasBearerItem s then s else s ++ [bearerRequirement]))
    ∧ (∀ k, k ≠ "bearerAuth" →
        schemeLookup (add_security_schemes d ops desc) k = schemeLookup d k) := by
  refine ⟨?_, ?_, ?_⟩
  · cases d with
    | ymap root =>
      obtain ⟨root3, h3⟩ := add_security_schemes_shape root ops desc
      have hval : mget root3 "security"
          = some (updSecurity ((mget root "security").getD (.yseq []))) := by
        have := rootSecurityVal_add_security_schemes root ops desc
        rw [h3] at this
        simpa [rootSecurityVal, Yaml.asMap] using this
      rw [h3, securityList_eq_rootSecurityVal, securityList_eq_rootSecurityVal,
        rootSecurityVal_add_security_schemes]
      simp [rootSecurityVal, Yaml.asMap, hval, updSecurity_idem]
    | ystr s => rw [add_security_schemes_not_map (Yaml.ystr s) ops desc rfl, add_security_schemes_not_map (Yaml.ystr s) ops desc rfl]
    | ynum n => rw [add_security_schemes_not_map (Yaml.ynum n) ops desc rfl, add_security_schemes_not_map (Yaml.ynum n) ops desc rfl]
    | ybool b => rw [add_security_schemes_not_map (Yaml.ybool b) ops desc rfl, add_security_schemes_not_map (Yaml.ybool b) ops desc rfl]
    | ynull => rw [add_security_schemes_not_map Yaml.ynull ops desc rfl, add_security_schemes_not_map Yaml.ynull ops desc rfl]
    | yseq s => rw [add_security_schemes_not_map (Yaml.yseq s) ops desc rfl, add_security_schemes_not_map (Yaml.yseq s) ops desc rfl]
  · intro s hs
    cases d with
    | ymap root =>
      rw [securityList_eq_rootSecurityVal] at hs
      simp only [rootSecurityVal, Yaml.asMap, Option.some_bind] at hs
      obtain ⟨v, hv, hvs⟩ := Option.bind_eq_some.mp hs
      cases v with
      | yseq s2 =>
        have hss : s2 = s := by simpa [Yaml.asSeq] using hvs
        subst hss
        rw [securityList_eq_rootSecurityVal, rootSecurityVal_add_security_schemes]
        by_cases hb : hasBearerItem s2
        · simp [hv, updSecurity, hb, Yaml.asSeq]
        · simp [hv, updSecurity, hb, Yaml.asSeq]
      | ystr s2 => simp [Yaml.asSeq] at hvs
      | ynum n => simp [Yaml.asSeq] at hvs
      | ybool b => simp [Yaml.asSeq] at hvs
      | ynull => simp [Yaml.asSeq] at hvs
      | ymap m => simp [Yaml.asSeq] at hvs
    | ystr s2 => simp [securityList, Yaml.asMap] at hs
    | ynum n => simp [securityList, Yaml.asMap] at hs
    | ybool b => simp [securityList, Yaml.asMap] at hs
    | ynull => simp [securityList, Yaml.asMap] at hs
    | yseq s2 => simp [securityList, Yaml.asMap] at hs
  · intro k hk
    simp only [add_security_schemes]
    rw [schemeLookup_overridePublicOps, schemeLookup_addBearerRequirement,
      schemeLookup_addBearerScheme_ne _ _ _ hk]

/-- Closed witness for C7 on a concrete document with a user scheme and an
existing requirement. -/
theorem add_security_schemes_idempotent_witness :
    securityList (add_security_schemes (add_security_schemes secDoc0 [] none) [] none)
      = securityList (add_security_schemes secDoc0 [] none)
    ∧ securityList (add_security_schemes secDoc0 [] none)
      = some (if hasBearerItem [Yaml.ymap [(Yaml.ystr "apiKey", Yaml.yseq [])]]
              then [Yaml.ymap [(Yaml.ystr "apiKey", Yaml.yseq [])]]
              else [Yaml.ymap [(Yaml.ystr "apiKey", Yaml.yseq [])]] ++ [bearerRequirement])
    ∧ schemeLookup (add_security_schemes secDoc0 [] none) "apiKey"
      = schemeLookup secDoc0 "apiKey" :=
  ⟨(add_security_schemes_idempotent secDoc0 [] none).1,
   (add_security_schemes_idempotent secDoc0 [] none).2.1
     [Yaml.ymap [(Yaml.ystr "apiKey", Yaml.yseq [])]] rfl,
   (add_security_schemes_idempotent secDoc0 [] none).2.2 "apiKey" (by decide)⟩

/-- C10: on a document whose root mapping has no `components` key,
`add_security_schemes` never creates one — so the bearer scheme is not
defined anywhere — while the top-level `security` sequence is created and
receives the bearer requirement, which therefore references an undefined
scheme. -/
theorem add_security_schemes_no_components (root : List (Yaml × Yaml)) (ops : List String)
    (desc : Option String)
    (hnc : mcontains root "components" = false)
    (hns : mcontains root "security" = false) :
    (∃ root3, add_security_schemes (.ymap root) ops desc = .ymap root3
       ∧ mcontains root3 "components" = false
       ∧ mget root3 "security" = some (.yseq [bearerRequirement]))
    ∧ schemeLookup (add_security_schemes (.ymap root) ops desc) "bearerAuth" = none := by
  obtain ⟨root3, h3⟩ := add_security_schemes_shape root ops desc
  have hsec : mget root3 "security" = some (.yseq [bearerRequirement]) := by
    have := rootSecurityVal_add_security_schemes root ops desc
    rw [h3] at this
    have hnone : mget root "security" = none :=
      Option.not_isSome_iff_eq_none.mp (by simpa [mcontains] using hns)
    simpa [rootSecurityVal, Yaml.asMap, hnone, updSecurity, hasBearerItem] using this
  have hcomp : mget root3 "components" = none := by
    have hnone : mget root "components" = none :=
      Option.not_isSome_iff_eq_none.mp (by simpa [mcontains] using hnc)
    have hstep1 : addBearerScheme (.ymap root) (desc.getD "Bearer authentication token")
        = .ymap root := by
      simp [addBearerScheme, mUpdateFirst_not_contains root "components" _ hnc]
    have : add_security_schemes (.ymap root) ops desc
        = overridePublicOps (addBearerRequirement (.ymap root)) ops := by
      simp only [add_security_schemes]
      rw [hstep1]
    rw [this] at h3
    simp only [addBearerRequirement] at h3
    simp only [overridePublicOps, forEachOperation] at h3
    have h3' := Yaml.ymap.inj h3
    rw [← h3']
    rw [mget_mUpdateFirst_ne _ "paths" "components" _ (by decide),
      mget_mUpdateFirst_ne _ "security" "components" _ (by decide),
      mget_mEntryOrInsert_ne _ "security" "components" _ (by decide)]
    exact hnone
  refine ⟨⟨root3, h3, by simp [mcontains, hcomp], hsec⟩, ?_⟩
  rw [h3]
  simp [schemeLookup, Yaml.asMap, hcomp]

/-- Closed witness for C10 on a concrete document lacking `components`. -/
theorem add_security_schemes_no_components_witness :
    (∃ root3, add_security_schemes (.ymap [(.ystr "paths", .ymap [])]) [] none = .ymap root3
       ∧ mcontains root3 "components" = false
       ∧ mget root3 "security" = some (.yseq [bearerRequirement]))
    ∧ schemeLookup (add_security_schemes (.ymap [(.ystr "paths", .ymap [])]) [] none)
        "bearerAuth" = none :=
  add_security_schemes_no_components [(.ystr "paths", .ymap [])] [] none rfl rfl

/-! ## Method-name resolution: claim theorem -/

/-- C3: a qualified `Service.Method` name resolves to `Service_Method`
exactly when some discovered operation has that id, otherwise failing with
`MethodNotFound`; a bare name resolves exactly when precisely one
operation has that short method name, with `MethodNotFound` on zero
matches and `AmbiguousMethodName` (carrying the full candidate list) on
several. -/
theorem resolve_single_operation_id_spec (md : List OperationEntry) (name : String) :
    (∀ service method, splitOnceDot name = some (service, method) →
      (resolve_single_operation_id md name = .ok (service ++ "_" ++ method)
          ↔ ∃ e ∈ md, e.operation_id = service ++ "_" ++ method)
      ∧ ((¬ ∃ e ∈ md, e.operation_id = service ++ "_" ++ method) →
          resolve_single_operation_id md name = .error (.methodNotFound name)))
    ∧ (splitOnceDot name = none →
      ((∃ i, resolve_single_operation_id md name = .ok i)
          ↔ (md.filter (fun e => e.method_name == name)).length = 1)
      ∧ (md.filter (fun e => e.method_name == name) = [] →
          resolve_single_operation_id md name = .error (.methodNotFound name))
      ∧ (∀ e, md.filter (fun e => e.method_name == name) = [e] →
          resolve_single_operation_id md name = .ok e.operation_id)
      ∧ (2 ≤ (md.filter (fun e => e.method_name == name)).length →
          resolve_single_operation_id md name
            = .error (.ambiguousMethodName name
                ((md.filter (fun e => e.method_name == name)).map
                  (fun e => e.operation_id))))) := by
  constructor
  · intro service method hsplit
    have hq : resolve_single_operation_id md name
        = match md.find? (fun e => e.operation_id == service ++ "_" ++ method) with
          | some e => .ok e.operation_id
          | none => .error (.methodNotFound name) := by
      simp [resolve_single_operation_id, hsplit]
    constructor
    · constructor
      · intro hok
        cases hfind : md.find? (fun e => e.operation_id == service ++ "_" ++ method) with
        | some e =>
          refine ⟨e, List.mem_of_find?_eq_some hfind, ?_⟩
          have := List.find?_some hfind
          simpa using this
        | none => rw [hq, hfind] at hok; exact absurd hok (by simp)
      · intro ⟨e, hmem, hid⟩
        cases hfind : md.find? (fun x => x.operation_id == service ++ "_" ++ method) with
        | some e2 =>
          have h2 := List.find?_some hfind
          simp at h2
          rw [hq, hfind]
          simp [h2]
        | none =>
          rw [List.find?_eq_none] at hfind
          exact absurd (by simpa using hid) (hfind e hmem)
    · intro hnone
      cases hfind : md.find? (fun x => x.operation_id == service ++ "_" ++ method) with
      | some e2 =>
        exact absurd ⟨e2, List.mem_of_find?_eq_some hfind,
          by simpa using List.find?_some hfind⟩ hnone
      | none => rw [hq, hfind]
  · intro hsplit
    have hb : resolve_single_operation_id md name
        = match md.filter (fun e => e.method_name == name) with
          | [] => .error (.methodNotFound name)
          | [e] => .ok e.operation_id
          | e :: e2 :: rest =>
            .error (.ambiguousMethodName name
              ((e :: e2 :: rest).map (fun x => x.operation_id))) := by
      simp [resolve_single_operation_id, hsplit]
    refine ⟨?_, ?_, ?_, ?_⟩
    · constructor
      · intro ⟨i, hi⟩
        cases hf : md.filter (fun e => e.method_name == name) with
        | nil => rw [hb, hf] at hi; exact absurd hi (by simp)
        | cons e rest =>
          cases rest with
          | nil => simp [hf]
          | cons e2 rest2 => rw [hb, hf] at hi; exact absurd hi (by simp)
      · intro hlen
        obtain ⟨e, he⟩ := List.length_eq_one.mp hlen
        exact ⟨e.operation_id, by rw [hb, he]⟩
    · intro hf
      rw [hb, hf]
    · intro e hf
      rw [hb, hf]
    · intro hlen
      cases hf : md.filter (fun e => e.method_name == name) with
      | nil => rw [hf] at hlen; simp at hlen
      | cons e rest =>
        cases rest with
        | nil => rw [hf] at hlen; simp at hlen
        | cons e2 rest2 => rw [hb, hf]

/-- Closed witness for C3: qualified resolution succeeds, and a bare name
matched by two services is reported ambiguous with both candidates. -/
theorem resolve_single_operation_id_spec_witness :
    resolve_single_operation_id resolverMd0 "AuthService.Authenticate"
      = .ok ("AuthService" ++ "_" ++ "Authenticate")
    ∧ resolve_single_operation_id resolverMd0 "Delete"
      = .error (.ambiguousMethodName "Delete"
          ((resolverMd0.filter (fun e => e.method_name == "Delete")).map
            (fun e => e.operation_id))) :=
  ⟨((resolve_single_operation_id_spec resolverMd0 "AuthService.Authenticate").1
      "AuthService" "Authenticate" rfl).1.mpr
      ⟨⟨"Authenticate", "AuthService_Authenticate"⟩, by simp [resolverMd0], by decide⟩,
   (((resolve_single_operation_id_spec resolverMd0 "Delete").2 rfl).2.2.2) (by decide)⟩

/-! ## Numeric bound translation: claim theorems -/

/-- C4: exclusive numeric bounds become inclusive ones by adding or
subtracting one with saturating arithmetic; an int32/uint32 bound widened
to 64 bits never wraps, and a bound at the representable extreme saturates
(uint32 and uint64 `lt: 0` both yield inclusive maximum 0, and uint64
saturating increment pins at `u64::MAX`). -/
theorem numeric_exclusive_bounds_saturate :
    (∀ g : Int, -2147483648 ≤ g → g < 2147483648 →
      ∃ c, field_to_constraint (mkRuleField (onlyInt32 ⟨none, none, some g, none⟩)) = some c
        ∧ c.signed_min = some (g + 1) ∧ g + 1 ≤ I64_MAX)
    ∧ (∀ l : Int, -2147483648 ≤ l → l < 2147483648 →
      ∃ c, field_to_constraint (mkRuleField (onlyInt32 ⟨some l, none, none, none⟩)) = some c
        ∧ c.signed_max = some (l - 1) ∧ I64_MIN ≤ l - 1)
    ∧ (∀ v : Nat, v < 4294967296 →
      ∃ c, field_to_constraint (mkRuleField (onlyUInt32 ⟨none, none, some v, none⟩)) = some c
        ∧ c.min = some (v + 1) ∧ v + 1 ≤ U64_MAX)
    ∧ (∃ c, field_to_constraint (mkRuleField (onlyUInt32 ⟨some 0, none, none, none⟩)) = some c
        ∧ c.max = some 0)
    ∧ (∃ c, field_to_constraint (mkRuleField (onlyUInt64 ⟨some 0, none, none, none⟩)) = some c
        ∧ c.max = some 0)
    ∧ (∃ c, field_to_constraint (mkRuleField (onlyUInt64 ⟨none, some 5, some U64_MAX, none⟩)) = some c
        ∧ c.min = some U64_MAX)
    ∧ u64SatAdd1 U64_MAX = U64_MAX := by
  refine ⟨?_, ?_, ?_, ?_, ?_, ?_, ?_⟩
  · intro g h1 h2
    have hsat : i64SatAdd1 g = g + 1 := by
      show min (g + 1) I64_MAX = g + 1
      simp only [I64_MAX]
      omega
    have heval : field_to_constraint (mkRuleField (onlyInt32 ⟨none, none, some g, none⟩))
        = some { field := snake_to_lower_camel "f", min := none, max := none,
                 signed_min := some (g + 1), signed_max := none, pattern := none,
                 enum_values := [], required := false, is_uuid := false,
                 is_numeric := true } := by
      simp [field_to_constraint, mkRuleField, onlyInt32, optOr, hsat]
    exact ⟨_, heval, rfl, by simp only [I64_MAX]; omega⟩
  · intro l h1 h2
    have hsat : i64SatSub1 l = l - 1 := by
      show max (l - 1) I64_MIN = l - 1
      simp only [I64_MIN]
      omega
    have heval : field_to_constraint (mkRuleField (onlyInt32 ⟨some l, none, none, none⟩))
        = some { field := snake_to_lower_camel "f", min := none, max := none,
                 signed_min := none, signed_max := some (l - 1), pattern := none,
                 enum_values := [], required := false, is_uuid := false,
                 is_numeric := true } := by
      simp [field_to_constraint, mkRuleField, onlyInt32, optOr, hsat]
    exact ⟨_, heval, rfl, by simp only [I64_MIN]; omega⟩
  · intro v hv
    have hsat : u64SatAdd1 v = v + 1 := by
      show min (v + 1) U64_MAX = v + 1
      simp only [U64_MAX]
      omega
    have heval : field_to_constraint (mkRuleField (onlyUInt32 ⟨none, none, some v, none⟩))
        = some { field := snake_to_lower_camel "f", min := some (v + 1), max := none,
                 signed_min := none, signed_max := none, pattern := none,
                 enum_values := [], required := false, is_uuid := false,
                 is_numeric := true } := by
      simp [field_to_constraint, mkRuleField, onlyUInt32, optOr, hsat]
    exact ⟨_, heval, rfl, by simp only [U64_MAX]; omega⟩
  · exact ⟨_, rfl, rfl⟩
  · exact ⟨_, rfl, rfl⟩
  · refine ⟨{ field := snake_to_lower_camel "f", min := some U64_MAX, max := some 5,
              signed_min := none, signed_max := none, pattern := none,
              enum_values := [], required := false, is_uuid := false,
              is_numeric := true }, by decide, rfl⟩
  · show min (U64_MAX + 1) U64_MAX = U64_MAX
    simp only [U64_MAX]
    omega

/-- Closed witness for C4 at the representable extremes of each type. -/
theorem numeric_exclusive_bounds_saturate_witness :
    (∃ c, field_to_constraint (mkRuleField (onlyInt32 ⟨none, none, some 2147483647, none⟩))
        = some c ∧ c.signed_min = some (2147483647 + 1) ∧ (2147483647 : Int) + 1 ≤ I64_MAX)
    ∧ (∃ c, field_to_constraint (mkRuleField (onlyUInt32 ⟨none, none, some 4294967295, none⟩))
        = some c ∧ c.min = some (4294967295 + 1) ∧ (4294967295 : Nat) + 1 ≤ U64_MAX) :=
  ⟨numeric_exclusive_bounds_saturate.1 2147483647 (by norm_num) (by norm_num),
   numeric_exclusive_bounds_saturate.2.2.1 4294967295 (by norm_num)⟩

/-- C5 counterexample: the uint64 rule `gte: 5` derives only a minimum
bound, which fits the JSON-safe envelope, and yet the whole constraint is
dropped — propagation is not governed by the derived bounds fitting the
envelope alone, but by a maximum being present and fitting. -/
theorem uint64_envelope_counterexample :
    u64DerivedMin u64gte5 = some 5
    ∧ (5 : Nat) ≤ JSON_SAFE_INT_MAX
    ∧ u64DerivedMax u64gte5 = none
    ∧ field_to_constraint (mkRuleField (onlyUInt64 u64gte5)) = none :=
  ⟨rfl, by decide, rfl, rfl⟩

/-- C5 (amended): uint64 numeric bounds are propagated exactly when the
derived inclusive maximum exists and does not exceed 2^53 - 1; the
maximum is then propagated and the minimum only when positive; with no
maximum, or one beyond the envelope, the numeric constraint is dropped
(in the absence of a message-required rule). -/
theorem uint64_bounds_propagation (ur : UInt64Rules) :
    (∀ m, u64DerivedMax ur = some m → m ≤ JSON_SAFE_INT_MAX →
      field_to_constraint (mkRuleField (onlyUInt64 ur))
        = some { field := snake_to_lower_camel "f",
                 min := if 0 < (u64DerivedMin ur).getD 0 then u64DerivedMin ur else none,
                 max := some m, signed_min := none, signed_max := none,
                 pattern := none, enum_values := [], required := false,
                 is_uuid := false, is_numeric := true })
    ∧ (u64DerivedMax ur = none →
        field_to_constraint (mkRuleField (onlyUInt64 ur)) = none)
    ∧ (∀ m, u64DerivedMax ur = some m → JSON_SAFE_INT_MAX < m →
        field_to_constraint (mkRuleField (onlyUInt64 ur)) = none) := by
  refine ⟨?_, ?_, ?_⟩
  · intro m hm hle
    by_cases h0 : 0 < (u64DerivedMin ur).getD 0
    · cases hmin : u64DerivedMin ur with
      | none => rw [hmin] at h0; simp at h0
      | some v =>
        rw [hmin] at h0
        simp at h0
        simp [field_to_constraint, mkRuleField, onlyUInt64, optOr, hm, hmin, hle, h0]
    · cases hmin : u64DerivedMin ur with
      | none =>
        simp [field_to_constraint, mkRuleField, onlyUInt64, optOr, hm, hmin, hle]
      | some v =>
        rw [hmin] at h0
        simp at h0
        simp [field_to_constraint, mkRuleField, onlyUInt64, optOr, hm, hmin, hle, h0]
  · intro hm
    simp [field_to_constraint, mkRuleField, onlyUInt64, optOr, hm]
  · intro m hm hlt
    simp [field_to_constraint, mkRuleField, onlyUInt64, optOr, hm, Nat.not_le.mpr hlt]

/-- Closed witness for the amended C5: a fitting maximum is propagated
together with the positive minimum, and a maximum beyond 2^53 - 1 drops
the constraint. -/
theorem uint64_bounds_propagation_witness :
    field_to_constraint (mkRuleField (onlyUInt64 ⟨some 10, none, none, some 2⟩))
      = some { field := snake_to_lower_camel "f",
               min := if 0 < (u64DerivedMin ⟨some 10, none, none, some 2⟩).getD 0
                      then u64DerivedMin ⟨some 10, none, none, some 2⟩ else none,
               max := some 9, signed_min := none, signed_max := none,
               pattern := none, enum_values := [], required := false,
               is_uuid := false, is_numeric := true }
    ∧ field_to_constraint (mkRuleField (onlyUInt64 ⟨none, some 9007199254740992, none, none⟩))
      = none :=
  ⟨(uint64_bounds_propagation ⟨some 10, none, none, some 2⟩).1 9 rfl (by decide),
   (uint64_bounds_propagation ⟨none, some 9007199254740992, none, none⟩).2.2
     9007199254740992 rfl (by decide)⟩

/-! ## Enum prefix detection: lemmas -/

theorem find?_range_some_spec (p : Nat → Bool) (n i : Nat)
    (h : (List.range n).find? p = some i) : p i = true ∧ ∀ j, j < i → p j = false := by
  induction n with
  | zero => rw [List.range_zero] at h; simp [List.find?] at h
  | succ n ih =>
    rw [List.range_succ, List.find?_append] at h
    cases hn : (List.range n).find? p with
    | some i2 =>
      rw [hn] at h
      simp [Option.or] at h
      subst h
      exact ih hn
    | none =>
      rw [hn] at h
      simp only [Option.or] at h
      have hall := List.find?_eq_none.mp hn
      by_cases hpn : p n
      · simp [List.find?, hpn] at h
        subst h
        refine ⟨hpn, ?_⟩
        intro j hj
        have := hall j (List.mem_range.mpr hj)
        simpa using this
      · simp [List.find?, hpn] at h

theorem commonPrefixLen_le (first : List Char) (rest : List (List Char)) :
    commonPrefixLen first rest ≤ first.length := by
  unfold commonPrefixLen
  cases hf : (List.range first.length).find? (fun i =>
      rest.any (fun v => !(first.take (i + 1)).isPrefixOf v)) with
  | none => simp
  | some i =>
    have := List.mem_range.mp (List.mem_of_find?_eq_some hf)
    simpa using Nat.le_of_lt this

theorem commonPrefixLen_shared (first : List Char) (rest : List (List Char)) :
    ∀ v ∈ rest, first.take (commonPrefixLen first rest) <+: v := by
  intro v hv
  unfold commonPrefixLen
  cases hf : (List.range first.length).find? (fun i =>
      rest.any (fun v => !(first.take (i + 1)).isPrefixOf v)) with
  | none =>
    simp only [Option.getD_none]
    have hall := List.find?_eq_none.mp hf
    rw [List.take_length]
    cases hlen : first.length with
    | zero =>
      have : first = [] := List.length_eq_zero.mp hlen
      rw [this]; exact List.nil_prefix
    | succ k =>
      have hk := hall k (List.mem_range.mpr (by omega))
      simp at hk
      have := hk v hv
      have hkk : k + 1 = first.length := by omega
      rw [hkk, List.take_length] at this
      exact this
  | some i =>
    simp only [Option.getD_some]
    obtain ⟨hp, hlt⟩ := find?_range_some_spec _ _ _ hf
    cases hi : i with
    | zero => simp [List.nil_prefix]
    | succ k =>
      have hk := hlt k (by omega)
      simp at hk
      exact hk v hv

theorem commonPrefixLen_max (first : List Char) (rest : List (List Char)) (q : List Char)
    (hq1 : q <+: first) (hq2 : ∀ v ∈ rest, q <+: v) :
    q.length ≤ commonPrefixLen first rest := by
  by_contra hcon
  push_neg at hcon
  have hqlen : q.length ≤ first.length := hq1.length_le
  unfold commonPrefixLen at hcon
  cases hf : (List.range first.length).find? (fun i =>
      rest.any (fun v => !(first.take (i + 1)).isPrefixOf v)) with
  | none => rw [hf] at hcon; simp at hcon; omega
  | some i =>
    rw [hf] at hcon
    simp only [Option.getD_some] at hcon
    obtain ⟨hp, _⟩ := find?_range_some_spec _ _ _ hf
    simp only [List.any_eq_true, Bool.not_eq_eq_eq_not, Bool.not_true] at hp
    obtain ⟨v, hv, hnp⟩ := hp
    have hq1' : q = first.take q.length := List.prefix_iff_eq_take.mp hq1
    have htq : first.take (i + 1) <+: q := by
      rw [hq1']
      have : first.take (i + 1) = (first.take q.length).take (i + 1) := by
        rw [List.take_take, Nat.min_eq_left (by omega)]
      rw [this]
      exact List.take_prefix _ _
    have : first.take (i + 1) <+: v := htq.trans (hq2 v hv)
    rw [← List.isPrefixOf_iff_prefix] at this
    rw [this] at hnp
    simp at hnp

theorem lastUnderscoreIdx_spec (l : List Char) (j : Nat)
    (h : lastUnderscoreIdx l = some j) : j < l.length ∧ l[j]? = some '_' := by
  induction l generalizing j with
  | nil => simp [lastUnderscoreIdx] at h
  | cons c rest ih =>
    unfold lastUnderscoreIdx at h
    cases hr : lastUnderscoreIdx rest with
    | some j2 =>
      rw [hr] at h
      simp at h
      obtain ⟨h1, h2⟩ := ih j2 hr
      subst h
      refine ⟨by simpa using Nat.succ_lt_succ h1, by simpa using h2⟩
    | none =>
      rw [hr] at h
      by_cases hc : c = '_'
      · simp [hc] at h
        subst h
        simp [hc]
      · simp [hc] at h

theorem lastUnderscoreIdx_ge (l : List Char) (i : Nat)
    (h : l[i]? = some '_') : ∃ j, lastUnderscoreIdx l = some j ∧ i ≤ j := by
  induction l generalizing i with
  | nil => simp at h
  | cons c rest ih =>
    cases i with
    | zero =>
      simp at h
      unfold lastUnderscoreIdx
      cases hr : lastUnderscoreIdx rest with
      | some j2 => exact ⟨j2 + 1, rfl, by omega⟩
      | none => exact ⟨0, by simp [h], Nat.le_refl 0⟩
    | succ i2 =>
      simp at h
      obtain ⟨j2, hj2, hle⟩ := ih i2 h
      unfold lastUnderscoreIdx
      rw [hj2]
      exact ⟨j2 + 1, rfl, by omega⟩

theorem prefix_getElem? (q l : List Char) (hql : q <+: l) (i : Nat) (hi : i < q.length) :
    q[i]? = l[i]? := by
  have hqtake : q = l.take q.length := List.prefix_iff_eq_take.mp hql
  conv_lhs => rw [hqtake]
  rw [List.getElem?_take]
  simp [hi]

theorem detectEnumPrefix_some_spec (values : List (List Char)) (p : List Char)
    (h : detectEnumPrefix values = some p) :
    SharedUnderscorePfxOf values p
    ∧ (∀ q, SharedUnderscorePfxOf values q → q.length ≤ p.length) := by
  cases values with
  | nil => simp [detectEnumPrefix] at h
  | cons first rest =>
    unfold detectEnumPrefix at h
    dsimp only at h
    cases hl : lastUnderscoreIdx (first.take (commonPrefixLen first rest)) with
    | none => rw [hl] at h; simp at h
    | some j =>
      rw [hl] at h
      dsimp only at h
      by_cases h3 : (first.take (j + 1)).length < 3
      · rw [if_pos h3] at h; simp at h
      · rw [if_neg h3] at h
        have hp : p = first.take (j + 1) := by simpa using h.symm
        obtain ⟨hjlt, hjget⟩ := lastUnderscoreIdx_spec _ j hl
        have hclen := commonPrefixLen_le first rest
        have hjc : j < commonPrefixLen first rest := by
          simp [Nat.lt_min] at hjlt
          exact hjlt.1
        have hjf : j < first.length := by
          simp [Nat.lt_min] at hjlt
          exact hjlt.2
        have hplen : p.length = j + 1 := by
          rw [hp]; simp; omega
        have hfirstj : first[j]? = some '_' := by
          rw [List.getElem?_take] at hjget
          simpa [hjc] using hjget
        have htl : (first.take (j + 1)).length = j + 1 := by simp; omega
        constructor
        · refine ⟨by omega, ?_, ?_⟩
          · rw [List.getLast?_eq_getElem?, hplen]
            simp only [Nat.add_sub_cancel]
            rw [hp, List.getElem?_take]
            simpa using hfirstj
          · intro v hv
            rcases List.mem_cons.mp hv with hv1 | hv2
            · rw [hv1, hp]; exact List.take_prefix _ _
            · have hpc : p <+: first.take (commonPrefixLen first rest) := by
                rw [hp]
                have heq : first.take (j + 1)
                    = (first.take (commonPrefixLen first rest)).take (j + 1) := by
                  rw [List.take_take, Nat.min_eq_left (by omega)]
                rw [heq]
                exact List.take_prefix _ _
              exact hpc.trans (commonPrefixLen_shared first rest v hv2)
        · intro q hq
          obtain ⟨hq3, hqlast, hqall⟩ := hq
          have hqfirst : q <+: first := hqall first (List.mem_cons_self _ _)
          have hqrest : ∀ v ∈ rest, q <+: v := fun v hv =>
            hqall v (List.mem_cons_of_mem _ hv)
          have hqc : q.length ≤ commonPrefixLen first rest :=
            commonPrefixLen_max first rest q hqfirst hqrest
          have hqget : q[q.length - 1]? = some '_' := by
            rw [← List.getLast?_eq_getElem?]; exact hqlast
          rw [prefix_getElem? q first hqfirst _ (by omega)] at hqget
          have hcq : (first.take (commonPrefixLen first rest))[q.length - 1]?
              = some '_' := by
            rw [List.getElem?_take, if_pos (by omega : q.length - 1 < commonPrefixLen first rest)]
            exact hqget
          obtain ⟨j2, hj2, hle2⟩ := lastUnderscoreIdx_ge _ _ hcq
          rw [hl] at hj2
          have hj2j : j = j2 := by simpa using hj2
          omega

theorem detectEnumPrefix_some_of_shared (values : List (List Char))
    (hne : values ≠ []) (q : List Char) (hq : SharedUnderscorePfxOf values q) :
    ∃ p, detectEnumPrefix values = some p := by
  cases values with
  | nil => exact absurd rfl hne
  | cons first rest =>
    obtain ⟨hq3, hqlast, hqall⟩ := hq
    have hqfirst : q <+: first := hqall first (List.mem_cons_self _ _)
    have hqrest : ∀ v ∈ rest, q <+: v := fun v hv =>
      hqall v (List.mem_cons_of_mem _ hv)
    have hqc : q.length ≤ commonPrefixLen first rest :=
      commonPrefixLen_max first rest q hqfirst hqrest
    have hclen := commonPrefixLen_le first rest
    have hqget : q[q.length - 1]? = some '_' := by
      rw [← List.getLast?_eq_getElem?]; exact hqlast
    rw [prefix_getElem? q first hqfirst _ (by omega)] at hqget
    have hcq : (first.take (commonPrefixLen first rest))[q.length - 1]?
        = some '_' := by
      rw [List.getElem?_take, if_pos (by omega : q.length - 1 < commonPrefixLen first rest)]
      exact hqget
    obtain ⟨j, hj, hle⟩ := lastUnderscoreIdx_ge _ _ hcq
    obtain ⟨hjlt, _⟩ := lastUnderscoreIdx_spec _ _ hj
    have hjc : j < commonPrefixLen first rest := by
      simp [Nat.lt_min] at hjlt
      exact hjlt.1
    have hjf : j < first.length := by omega
    refine ⟨first.take (j + 1), ?_⟩
    unfold detectEnumPrefix
    dsimp only
    rw [hj]
    dsimp only
    have hlen : (first.take (j + 1)).length = j + 1 := by simp; omega
    rw [if_neg (by rw [hlen]; omega)]

theorem perEnumEntry_spec (pkg : String) (e : EnumDescriptorProto) :
    (∀ fqn p stripped, perEnumEntry pkg e = some (fqn, p, stripped) →
        SharedUnderscorePfxOf (enumValueNames e) p
        ∧ (∀ q, SharedUnderscorePfxOf (enumValueNames e) q → q.length ≤ p.length)
        ∧ stripped = (enumValueNames e).map (fun v => (v.drop p.length).map Char.toLower))
    ∧ (HasSharedUnderscorePfx (enumValueNames e) → (perEnumEntry pkg e).isSome)
    ∧ (¬ HasSharedUnderscorePfx (enumValueNames e) → perEnumEntry pkg e = none) := by
  refine ⟨?_, ?_, ?_⟩
  · intro fqn p stripped h
    unfold perEnumEntry at h
    dsimp only at h
    cases hd : detectEnumPrefix (enumValueNames e) with
    | none => rw [hd] at h; simp at h
    | some p2 =>
      rw [hd] at h
      dsimp only at h
      by_cases hall : (enumValueNames e).all (fun v => p2.isPrefixOf v)
      · rw [if_pos hall] at h
        have hinj := Option.some.inj h
        have h2 : p2 = p := congrArg (fun t => t.2.1) hinj
        have h3 := congrArg (fun t => t.2.2) hinj
        dsimp only at h3
        subst h2
        have spec := detectEnumPrefix_some_spec _ _ hd
        exact ⟨spec.1, spec.2, h3.symm⟩
      · rw [if_neg hall] at h; simp at h
  · intro hs
    obtain ⟨hne, q, hq⟩ := hs
    obtain ⟨p, hp⟩ := detectEnumPrefix_some_of_shared _ hne q hq
    unfold perEnumEntry
    dsimp only
    rw [hp]
    dsimp only
    have hshared := (detectEnumPrefix_some_spec _ _ hp).1.2.2
    have hall : (enumValueNames e).all (fun v => p.isPrefixOf v) = true := by
      rw [List.all_eq_true]
      intro v hv
      rw [List.isPrefixOf_iff_prefix]
      exact hshared v hv
    rw [if_pos hall]
    rfl
  · intro hn
    cases hd : detectEnumPrefix (enumValueNames e) with
    | none => simp [perEnumEntry, hd]
    | some p =>
      exfalso
      have spec := (detectEnumPrefix_some_spec _ _ hd).1
      have hne : enumValueNames e ≠ [] := by
        intro hemp
        rw [hemp] at hd
        simp [detectEnumPrefix] at hd
      exact hn ⟨hne, p, spec⟩

theorem collectEnumRewriteFields_values :
    ∀ (messages : List DescriptorProto) (parentPath : String)
      (pe : List (String × List Char × List (List Char))) (rw0 : EnumRewrite),
      rw0 ∈ collectEnumRewriteFields parentPath messages pe →
      ∃ entry ∈ pe, rw0.values = entry.2.2
  | [], _, pe, rw0 => by
    intro h
    simp [collectEnumRewriteFields] at h
  | (DescriptorProto.mk nameOpt fields nested) :: rest, pp, pe, rw0 => by
    intro h
    rw [collectEnumRewriteFields, collectEnumRewriteMsg] at h
    rcases List.mem_append.mp h with h1 | h2
    · rcases List.mem_append.mp h1 with h1a | h1b
      · obtain ⟨f, hf, hsome⟩ := List.mem_filterMap.mp h1a
        by_cases ht : f.type = some 14
        · rw [if_pos ht] at hsome
          cases htn : f.type_name with
          | none => rw [htn] at hsome; simp at hsome
          | some tn =>
            rw [htn] at hsome
            dsimp only at hsome
            cases hfind : pe.find? (fun entry => entry.1 == tn) with
            | none => rw [hfind] at hsome; simp at hsome
            | some entry =>
              rw [hfind] at hsome
              dsimp only at hsome
              refine ⟨entry, List.mem_of_find?_eq_some hfind, ?_⟩
              have hrec := Option.some.inj hsome
              rw [← hrec]
        · rw [if_neg ht] at hsome; simp at hsome
      · exact collectEnumRewriteFields_values nested _ pe rw0 h1b
    · exact collectEnumRewriteFields_values rest pp pe rw0 h2

/-- C6: for an enum whose declared value names all share an
underscore-terminated prefix of at least 3 characters, discovery produces
an entry whose value list is the original names with the (maximal such)
prefix removed and lower-cased, in declaration order; an enum without such
a shared prefix produces no entry, and every discovered rewrite's value
list is the stripped list of some prefix-sharing enum. -/
theorem enum_rewrite_values_spec (fdset : FileDescriptorSet) :
    (∀ pkg e,
      (∀ fqn p stripped, perEnumEntry pkg e = some (fqn, p, stripped) →
        SharedUnderscorePfxOf (enumValueNames e) p
        ∧ (∀ q, SharedUnderscorePfxOf (enumValueNames e) q → q.length ≤ p.length)
        ∧ stripped = (enumValueNames e).map (fun v => (v.drop p.length).map Char.toLower))
      ∧ (HasSharedUnderscorePfx (enumValueNames e) → (perEnumEntry pkg e).isSome)
      ∧ (¬ HasSharedUnderscorePfx (enumValueNames e) → perEnumEntry pkg e = none))
    ∧ (∀ rw0 ∈ (extract_enum_rewrites fdset).1,
        ∃ entry ∈ prefixEnumsOf fdset, rw0.values = entry.2.2)
    ∧ (∀ entry ∈ prefixEnumsOf fdset,
        ∃ f ∈ fdset.file, ∃ e ∈ f.enum_type,
          perEnumEntry (f.package.getD "") e = some entry) := by
  refine ⟨fun pkg e => perEnumEntry_spec pkg e, ?_, ?_⟩
  · intro rw0 h
    unfold extract_enum_rewrites at h
    dsimp only at h
    by_cases hpe : (prefixEnumsOf fdset).isEmpty
    · rw [if_pos hpe] at h; simp at h
    · rw [if_neg hpe] at h
      dsimp only at h
      obtain ⟨f, hfmem, hcol⟩ := List.mem_flatMap.mp h
      exact collectEnumRewriteFields_values _ _ _ rw0 hcol
  · intro entry h
    unfold prefixEnumsOf at h
    obtain ⟨f, hf, hmem⟩ := List.mem_flatMap.mp h
    obtain ⟨e, he, hpe⟩ := List.mem_filterMap.mp hmem
    exact ⟨f, hf, e, he, hpe⟩

/-- Closed witness for C6 on `enumFdset0`: the detected `STATUS_` prefix
is a maximal shared underscore-terminated prefix, the stripped value list
is the lower-cased remainder in order, and the rewrite discovered for the
referencing field carries exactly that list. -/
theorem enum_rewrite_values_spec_witness :
    (SharedUnderscorePfxOf (enumValueNames enumE0) "STATUS_".toList
      ∧ (∀ q, SharedUnderscorePfxOf (enumValueNames enumE0) q →
          q.length ≤ "STATUS_".toList.length)
      ∧ ["unspecified".toList, "healthy".toList]
          = (enumValueNames enumE0).map
              (fun v => (v.drop "STATUS_".toList.length).map Char.toLower))
    ∧ (∃ entry ∈ prefixEnumsOf enumFdset0, enumRw0.values = entry.2.2) :=
  ⟨((enum_rewrite_values_spec enumFdset0).1 "auth.v1" enumE0).1
      ".auth.v1.Status" "STATUS_".toList ["unspecified".toList, "healthy".toList]
      (by decide),
   (enum_rewrite_values_spec enumFdset0).2.1 enumRw0 (by decide)⟩

/-! ## Patch pipeline error structure: lemmas and claim theorem -/

theorem mapM_resolve_ok_iff (md : List OperationEntry) (l : List String) :
    (∃ r, l.mapM (resolve_single_operation_id md) = Except.ok r)
      ↔ ∀ n ∈ l, ∃ i, resolve_single_operation_id md n = .ok i := by
  induction l with
  | nil =>
    constructor
    · intro _
      simp
    · intro _
      exact ⟨[], rfl⟩
  | cons a l ih =>
    rw [List.mapM_cons]
    constructor
    · intro ⟨r, hr⟩
      cases hfa : resolve_single_operation_id md a with
      | error e => rw [hfa] at hr; simp [Bind.bind, Except.bind] at hr
      | ok b =>
        rw [hfa] at hr
        cases hml : l.mapM (resolve_single_operation_id md) with
        | error e => rw [hml] at hr; simp [Bind.bind, Except.bind] at hr
        | ok bs =>
          intro n hn
          rcases List.mem_cons.mp hn with h | h
          · exact ⟨b, h ▸ hfa⟩
          · exact ih.mp ⟨bs, hml⟩ n h
    · intro hall
      obtain ⟨b, hb⟩ := hall a (List.mem_cons_self _ _)
      obtain ⟨bs, hbs⟩ := ih.mpr (fun n hn => hall n (List.mem_cons_of_mem _ hn))
      refine ⟨b :: bs, ?_⟩
      rw [hb, hbs]
      rfl

theorem resolve_method_list_ok_iff (md : List OperationEntry) (names : List String) :
    (∃ r, resolve_method_list md names = Except.ok r)
      ↔ ∀ n ∈ names, ∃ i, resolve_single_operation_id md n = .ok i := by
  unfold resolve_method_list
  by_cases h : names.isEmpty
  · rw [if_pos h]
    rw [List.isEmpty_iff] at h
    subst h
    simp
  · rw [if_neg h]
    exact mapM_resolve_ok_iff md names

theorem resolved_ops_ok_iff (cfg : PatchConfigM) :
    (∃ ops, resolved_ops cfg = Except.ok ops)
      ↔ (∀ n ∈ cfg.unimplemented_method_names,
            ∃ i, resolve_single_operation_id cfg.metadata n = .ok i)
        ∧ (∀ n ∈ cfg.public_method_names,
            ∃ i, resolve_single_operation_id cfg.metadata n = .ok i)
        ∧ (∀ n ∈ cfg.deprecated_method_names,
            ∃ i, resolve_single_operation_id cfg.metadata n = .ok i) := by
  constructor
  · intro ⟨ops, hops⟩
    unfold resolved_ops at hops
    cases h1 : resolve_method_list cfg.metadata cfg.unimplemented_method_names with
    | error e => rw [h1] at hops; simp [Bind.bind, Except.bind] at hops
    | ok r1 =>
      rw [h1] at hops
      cases h2 : resolve_method_list cfg.metadata cfg.public_method_names with
      | error e => rw [h2] at hops; simp [Bind.bind, Except.bind] at hops
      | ok r2 =>
        rw [h2] at hops
        cases h3 : resolve_method_list cfg.metadata cfg.deprecated_method_names with
        | error e => rw [h3] at hops; simp [Bind.bind, Except.bind] at hops
        | ok r3 =>
          exact ⟨(resolve_method_list_ok_iff _ _).mp ⟨r1, h1⟩,
                 (resolve_method_list_ok_iff _ _).mp ⟨r2, h2⟩,
                 (resolve_method_list_ok_iff _ _).mp ⟨r3, h3⟩⟩
  · intro ⟨ha, hb, hc⟩
    obtain ⟨r1, h1⟩ := (resolve_method_list_ok_iff _ _).mpr ha
    obtain ⟨r2, h2⟩ := (resolve_method_list_ok_iff _ _).mpr hb
    obtain ⟨r3, h3⟩ := (resolve_method_list_ok_iff _ _).mpr hc
    refine ⟨(r1, r2, r3), ?_⟩
    unfold resolved_ops
    rw [h1, h2, h3]
    rfl

/-- C8: after parsing, the patch pipeline fails exactly when resolving the
configured method-name lists fails — independently of the (total)
transform phases — and any returned error is the resolution error. -/
theorem patch_fails_only_at_resolution
    (phases : (List String × List String × List String) → Yaml → Yaml)
    (cfg : PatchConfigM) (doc : Yaml) :
    ((∃ d, patchAfterParse phases cfg doc = .ok d)
        ↔ ∀ n ∈ cfg.unimplemented_method_names ++ cfg.public_method_names
              ++ cfg.deprecated_method_names,
            ∃ i, resolve_single_operation_id cfg.metadata n = .ok i)
    ∧ (∀ e, patchAfterParse phases cfg doc = .error e → resolved_ops cfg = .error e) := by
  constructor
  · constructor
    · intro ⟨d, hd⟩
      unfold patchAfterParse at hd
      cases hro : resolved_ops cfg with
      | error e => rw [hro] at hd; simp at hd
      | ok ops =>
        have := (resolved_ops_ok_iff cfg).mp ⟨ops, hro⟩
        intro n hn
        simp only [List.mem_append] at hn
        rcases hn with (h | h) | h
        · exact this.1 n h
        · exact this.2.1 n h
        · exact this.2.2 n h
    · intro hall
      have hsplit : (∀ n ∈ cfg.unimplemented_method_names,
            ∃ i, resolve_single_operation_id cfg.metadata n = .ok i)
          ∧ (∀ n ∈ cfg.public_method_names,
            ∃ i, resolve_single_operation_id cfg.metadata n = .ok i)
          ∧ (∀ n ∈ cfg.deprecated_method_names,
            ∃ i, resolve_single_operation_id cfg.metadata n = .ok i) := by
        refine ⟨fun n hn => hall n ?_, fun n hn => hall n ?_, fun n hn => hall n ?_⟩
          <;> simp [List.mem_append, hn]
      obtain ⟨ops, hops⟩ := (resolved_ops_ok_iff cfg).mpr hsplit
      exact ⟨phases ops doc, by unfold patchAfterParse; rw [hops]⟩
  · intro e he
    unfold patchAfterParse at he
    cases hro : resolved_ops cfg with
    | error e2 =>
      rw [hro] at he
      simp at he
      rw [he]
    | ok ops => rw [hro] at he; simp at he

/-- Closed witness for C8: with a fully resolvable configuration the
pipeline succeeds for any phase block, and with an unresolvable public
method name it returns exactly the resolution error. -/
theorem patch_fails_only_at_resolution_witness :
    (∀ n ∈ patchCfg0.unimplemented_method_names ++ patchCfg0.public_method_names
        ++ patchCfg0.deprecated_method_names,
      ∃ i, resolve_single_operation_id patchCfg0.metadata n = .ok i)
    ∧ resolved_ops patchCfg1 = .error (.methodNotFound "Nope") :=
  ⟨(patch_fails_only_at_resolution (fun _ d => d) patchCfg0 Yaml.ynull).1.mp
      ⟨Yaml.ynull, rfl⟩,
   (patch_fails_only_at_resolution (fun _ d => d) patchCfg1 Yaml.ynull).2
      (.methodNotFound "Nope") rfl⟩

/-! ## Orphan pruning: worklist lemmas -/

theorem processRefs_spec (rs : List String) : ∀ reach front : List String,
    (∀ x ∈ reach, x ∈ (processRefs rs (reach, front)).1)
    ∧ (∀ x ∈ (processRefs rs (reach, front)).1,
         x ∈ reach ∨ ∃ r ∈ rs, stripSchemaRef r = some x)
    ∧ (∀ r ∈ rs, ∀ d, stripSchemaRef r = some d → d ∈ (processRefs rs (reach, front)).1)
    ∧ (∀ x ∈ front, x ∈ (processRefs rs (reach, front)).2)
    ∧ (∀ x ∈ (processRefs rs (reach, front)).2,
         x ∈ front ∨ x ∈ (processRefs rs (reach, front)).1)
    ∧ (∀ x ∈ (processRefs rs (reach, front)).1,
         x ∈ reach ∨ x ∈ (processRefs rs (reach, front)).2) := by
  induction rs with
  | nil =>
    intro reach front
    refine ⟨fun x hx => hx, fun x hx => Or.inl hx, ?_, fun x hx => hx,
      fun x hx => Or.inl hx, fun x hx => Or.inl hx⟩
    intro r hr
    simp at hr
  | cons r rest ih =>
    intro reach front
    cases hs : stripSchemaRef r with
    | none =>
      have hpr : processRefs (r :: rest) (reach, front) = processRefs rest (reach, front) := by
        simp [processRefs, hs]
      rw [hpr]
      obtain ⟨a, b, c, d, e, f⟩ := ih reach front
      refine ⟨a, ?_, ?_, d, e, f⟩
      · intro x hx
        rcases b x hx with h | ⟨r2, hr2, hs2⟩
        · exact Or.inl h
        · exact Or.inr ⟨r2, List.mem_cons_of_mem _ hr2, hs2⟩
      · intro r2 hr2 d2 hs2
        rcases List.mem_cons.mp hr2 with h | h
        · subst h; rw [hs] at hs2; exact absurd hs2 (by simp)
        · exact c r2 h d2 hs2
    | some dep =>
      by_cases hmem : dep ∈ reach
      · have hpr : processRefs (r :: rest) (reach, front)
            = processRefs rest (reach, front) := by
          simp [processRefs, hs, hmem]
        rw [hpr]
        obtain ⟨a, b, c, d, e, f⟩ := ih reach front
        refine ⟨a, ?_, ?_, d, e, f⟩
        · intro x hx
          rcases b x hx with h | ⟨r2, hr2, hs2⟩
          · exact Or.inl h
          · exact Or.inr ⟨r2, List.mem_cons_of_mem _ hr2, hs2⟩
        · intro r2 hr2 d2 hs2
          rcases List.mem_cons.mp hr2 with h | h
          · subst h
            rw [hs] at hs2
            have hd2 : d2 = dep := by simpa using hs2.symm
            rw [hd2]
            exact a dep hmem
          · exact c r2 h d2 hs2
      · have hpr : processRefs (r :: rest) (reach, front)
            = processRefs rest (dep :: reach, dep :: front) := by
          simp [processRefs, hs, hmem]
        rw [hpr]
        obtain ⟨a, b, c, d, e, f⟩ := ih (dep :: reach) (dep :: front)
        refine ⟨?_, ?_, ?_, ?_, ?_, ?_⟩
        · intro x hx
          exact a x (List.mem_cons_of_mem _ hx)
        · intro x hx
          rcases b x hx with h | ⟨r2, hr2, hs2⟩
          · rcases List.mem_cons.mp h with h1 | h1
            · exact Or.inr ⟨r, List.mem_cons_self _ _, h1 ▸ hs⟩
            · exact Or.inl h1
          · exact Or.inr ⟨r2, List.mem_cons_of_mem _ hr2, hs2⟩
        · intro r2 hr2 d2 hs2
          rcases List.mem_cons.mp hr2 with h | h
          · subst h
            rw [hs] at hs2
            have hd2 : d2 = dep := by simpa using hs2.symm
            rw [hd2]
            exact a dep (List.mem_cons_self _ _)
          · exact c r2 h d2 hs2
        · intro x hx
          exact d x (List.mem_cons_of_mem _ hx)
        · intro x hx
          rcases e x hx with h | h
          · rcases List.mem_cons.mp h with h1 | h1
            · exact Or.inr (h1 ▸ a dep (List.mem_cons_self _ _))
            · exact Or.inl h1
          · exact Or.inr h
        · intro x hx
          rcases f x hx with h | h
          · rcases List.mem_cons.mp h with h1 | h1
            · exact Or.inr (h1 ▸ d dep (List.mem_cons_self _ _))
            · exact Or.inl h1
          · exact Or.inr h

theorem filter_length_mono (U : List String) (p q : String → Bool)
    (h : ∀ x, p x = true → q x = true) :
    (U.filter p).length ≤ (U.filter q).length := by
  induction U with
  | nil => simp
  | cons u rest ih =>
    by_cases hp : p u
    · simp [List.filter, hp, h u hp]
      omega
    · by_cases hq : q u
      · simp [List.filter, hp, hq]
        omega
      · simp [List.filter, hp, hq]
        exact ih

theorem filter_not_mem_cons_lt (U reach : List String) (dep : String)
    (hdepU : dep ∈ U) (hdep : dep ∉ reach) :
    (U.filter (fun x => decide (x ∉ dep :: reach))).length + 1
      ≤ (U.filter (fun x => decide (x ∉ reach))).length := by
  induction U with
  | nil => simp at hdepU
  | cons u rest ih =>
    have hmono : ∀ x : String,
        decide (x ∉ dep :: reach) = true → decide (x ∉ reach) = true := by
      intro x hx
      simp at hx ⊢
      exact fun hxr => hx.2 hxr
    by_cases hu : u = dep
    · subst hu
      have h1 : decide (u ∉ u :: reach) = false := by simp
      have h2 : decide (u ∉ reach) = true := by simpa using hdep
      simp only [List.filter_cons, h1, h2, Bool.false_eq_true, if_false, if_true,
        List.length_cons]
      have := filter_length_mono rest _ _ hmono
      omega
    · rcases List.mem_cons.mp hdepU with h | h
      · exact absurd h.symm hu
      · by_cases hur : u ∈ reach
        · have h1 : decide (u ∉ dep :: reach) = false := by simp [hur]
          have h2 : decide (u ∉ reach) = false := by simp [hur]
          simp only [List.filter_cons, h1, h2, Bool.false_eq_true, if_false]
          exact ih h
        · have h1 : decide (u ∉ dep :: reach) = true := by simp [hur, hu]
          have h2 : decide (u ∉ reach) = true := by simp [hur]
          simp only [List.filter_cons, h1, h2, if_true, List.length_cons]
          have := ih h
          omega

theorem processRefs_measure (U : List String) (rs : List String) :
    ∀ reach front : List String,
    (∀ r ∈ rs, ∀ d, stripSchemaRef r = some d → d ∈ U) →
    (processRefs rs (reach, front)).2.length
        + (U.filter (fun x => decide (x ∉ (processRefs rs (reach, front)).1))).length
      ≤ front.length + (U.filter (fun x => decide (x ∉ reach))).length := by
  induction rs with
  | nil =>
    intro reach front _
    simp [processRefs]
  | cons r rest ih =>
    intro reach front hU
    cases hs : stripSchemaRef r with
    | none =>
      have hpr : processRefs (r :: rest) (reach, front) = processRefs rest (reach, front) := by
        simp [processRefs, hs]
      rw [hpr]
      exact ih reach front (fun r2 h d2 hs2 => hU r2 (List.mem_cons_of_mem _ h) d2 hs2)
    | some dep =>
      by_cases hmem : dep ∈ reach
      · have hpr : processRefs (r :: rest) (reach, front)
            = processRefs rest (reach, front) := by
          simp [processRefs, hs, hmem]
        rw [hpr]
        exact ih reach front (fun r2 h d2 hs2 => hU r2 (List.mem_cons_of_mem _ h) d2 hs2)
      · have hpr : processRefs (r :: rest) (reach, front)
            = processRefs rest (dep :: reach, dep :: front) := by
          simp [processRefs, hs, hmem]
        rw [hpr]
        have hdepU : dep ∈ U := hU r (List.mem_cons_self _ _) dep hs
        have hstep := filter_not_mem_cons_lt U reach dep hdepU hmem
        have hrec := ih (dep :: reach) (dep :: front)
          (fun r2 h d2 hs2 => hU r2 (List.mem_cons_of_mem _ h) d2 hs2)
        simp only [List.length_cons] at hrec
        omega

theorem walkFuel_mono (snap : List (Yaml × Yaml)) (fuel : Nat) :
    ∀ reach front : List String, ∀ x ∈ reach, x ∈ walkFuel snap fuel reach front := by
  induction fuel with
  | zero => intro reach front x hx; exact hx
  | succ fuel ih =>
    intro reach front x hx
    cases front with
    | nil => exact hx
    | cons name rest =>
      cases hm : mget snap name with
      | none => simp only [walkFuel, hm]; exact ih reach rest x hx
      | some v =>
        simp only [walkFuel, hm]
        exact ih _ _ x ((processRefs_spec (collectRefs v) reach rest).1 x hx)

theorem walkFuel_sound (snap : List (Yaml × Yaml)) (roots : List String) (fuel : Nat) :
    ∀ reach front : List String,
    (∀ x ∈ front, x ∈ reach) →
    (∀ x ∈ reach, SchemaDeriv snap roots x) →
    ∀ x ∈ walkFuel snap fuel reach front, SchemaDeriv snap roots x := by
  induction fuel with
  | zero => intro reach front _ hR x hx; exact hR x hx
  | succ fuel ih =>
    intro reach front hF hR x hx
    cases front with
    | nil => exact hR x hx
    | cons name rest =>
      cases hm : mget snap name with
      | none =>
        simp only [walkFuel, hm] at hx
        exact ih reach rest (fun y hy => hF y (List.mem_cons_of_mem _ hy)) hR x hx
      | some v =>
        simp only [walkFuel, hm] at hx
        obtain ⟨a, b, c, d, e, f⟩ := processRefs_spec (collectRefs v) reach rest
        have hname : SchemaDeriv snap roots name := hR name (hF name (List.mem_cons_self _ _))
        have hR2 : ∀ y ∈ (processRefs (collectRefs v) (reach, rest)).1,
            SchemaDeriv snap roots y := by
          intro y hy
          rcases b y hy with h | ⟨r, hr, hsr⟩
          · exact hR y h
          · exact SchemaDeriv.step name y v r hname hm hr hsr
        have hF2 : ∀ y ∈ (processRefs (collectRefs v) (reach, rest)).2,
            y ∈ (processRefs (collectRefs v) (reach, rest)).1 := by
          intro y hy
          rcases e y hy with h | h
          · exact a y (hF y (List.mem_cons_of_mem _ h))
          · exact h
        exact ih _ _ hF2 hR2 x hx

theorem depUniverse_mem (snap : List (Yaml × Yaml)) (name : String) (v : Yaml)
    (h : mget snap name = some v) :
    ∀ r ∈ collectRefs v, ∀ d, stripSchemaRef r = some d → d ∈ depUniverse snap := by
  induction snap with
  | nil => simp [mget] at h
  | cons kv rest ih =>
    obtain ⟨key, w⟩ := kv
    intro r hr d hd
    by_cases hk : keyIs key name
    · simp [mget, hk] at h
      subst h
      unfold depUniverse
      simp only [List.foldr_cons]
      exact List.mem_append_left _ (List.mem_filterMap.mpr ⟨r, hr, hd⟩)
    · simp [mget, hk] at h
      unfold depUniverse
      simp only [List.foldr_cons]
      exact List.mem_append_right _ (ih h r hr d hd)

/-- Every `$ref` dependency of `x` within the snapshot lies in `s`. -/
def depsDone (snap : List (Yaml × Yaml)) (x : String) (s : List String) : Prop :=
  ∀ v, mget snap x = some v → ∀ r ∈ collectRefs v, ∀ d, stripSchemaRef r = some d → d ∈ s

theorem walkFuel_closed (snap : List (Yaml × Yaml)) (fuel : Nat) :
    ∀ reach front : List String,
    front.length + ((depUniverse snap).filter (fun x => decide (x ∉ reach))).length ≤ fuel →
    (∀ x ∈ reach, x ∈ front ∨ depsDone snap x reach) →
    ∀ x ∈ walkFuel snap fuel reach front, depsDone snap x (walkFuel snap fuel reach front) := by
  induction fuel with
  | zero =>
    intro reach front hfuel hInv x hx
    have hfr : front = [] := by
      cases front with
      | nil => rfl
      | cons a b => simp at hfuel
    subst hfr
    intro v hv r hr d hd
    rcases hInv x hx with h | h
    · simp at h
    · exact h v hv r hr d hd
  | succ fuel ih =>
    intro reach front hfuel hInv x hx
    cases front with
    | nil =>
      intro v hv r hr d hd
      rcases hInv x hx with h | h
      · simp at h
      · exact h v hv r hr d hd
    | cons name rest =>
      cases hm : mget snap name with
      | none =>
        simp only [walkFuel, hm] at hx ⊢
        refine ih reach rest ?_ ?_ x hx
        · simp only [List.length_cons] at hfuel
          omega
        · intro y hy
          rcases hInv y hy with h | h
          · rcases List.mem_cons.mp h with h1 | h1
            · subst h1
              exact Or.inr (fun v hv => by rw [hm] at hv; exact absurd hv (by simp))
            · exact Or.inl h1
          · exact Or.inr h
      | some v =>
        simp only [walkFuel, hm] at hx ⊢
        obtain ⟨a, b, c, d0, e, f⟩ := processRefs_spec (collectRefs v) reach rest
        refine ih _ _ ?_ ?_ x hx
        · have hmeas := processRefs_measure (depUniverse snap) (collectRefs v) reach rest
            (depUniverse_mem snap name v hm)
          simp only [List.length_cons] at hfuel
          omega
        · intro y hy
          rcases f y hy with hyr | hyf
          · rcases hInv y hyr with h | h
            · rcases List.mem_cons.mp h with h1 | h1
              · subst h1
                refine Or.inr ?_
                intro v2 hv2 r hr d hd
                rw [hm] at hv2
                have hv2v : v2 = v := by simpa using hv2.symm
                subst hv2v
                exact c r hr d hd
              · exact Or.inl (d0 y h1)
            · refine Or.inr ?_
              intro v2 hv2 r hr d hd
              exact a d (h v2 hv2 r hr d hd)
          · exact Or.inl hyf

theorem walkFuel_complete (snap : List (Yaml × Yaml)) (s : List String) :
    ∀ x, SchemaDeriv snap s x →
    x ∈ walkFuel snap (s.length + (depUniverse snap).length) s s := by
  have hfuel : s.length
      + ((depUniverse snap).filter (fun x => decide (x ∉ s))).length
      ≤ s.length + (depUniverse snap).length := by
    have := List.length_filter_le (fun x => decide (x ∉ s)) (depUniverse snap)
    omega
  have hclosed := walkFuel_closed snap (s.length + (depUniverse snap).length) s s hfuel
    (fun x hx => Or.inl hx)
  intro x hx
  induction hx with
  | root n hn => exact walkFuel_mono snap _ s s n hn
  | step m n v r hder hm hr hsr ih =>
    exact hclosed m ih v hm r hr n hsr

theorem walkFuel_iff (snap : List (Yaml × Yaml)) (s : List String) (x : String) :
    x ∈ walkFuel snap (s.length + (depUniverse snap).length) s s
      ↔ SchemaDeriv snap s x := by
  constructor
  · intro hx
    exact walkFuel_sound snap s _ s s (fun y hy => hy)
      (fun y hy => SchemaDeriv.root y hy) x hx
  · exact walkFuel_complete snap s x

/-! ## Orphan pruning: document-level lemmas -/

theorem asStr_eq_some (y : Yaml) (s : String) (h : y.asStr = some s) : y = .ystr s := by
  cases y <;> simp [Yaml.asStr] at h <;> simp [h]

theorem reachableOf_iff (doc : Yaml) (x : String) :
    x ∈ reachableOf doc ↔ SchemaReachable doc x := by
  unfold reachableOf SchemaReachable
  exact walkFuel_iff _ _ x

theorem schemasOf_update (doc : Yaml) (f : List (Yaml × Yaml) → List (Yaml × Yaml))
    (es : List (Yaml × Yaml)) (h : schemasOf doc = some es) :
    schemasOf (updateSchemas doc f) = some (f es) := by
  cases doc with
  | ymap root =>
    simp only [schemasOf, Yaml.asMap, Option.some_bind] at h ⊢
    cases hc : mget root "components" with
    | none => rw [hc] at h; simp at h
    | some comp =>
      rw [hc] at h
      cases comp with
      | ymap cm =>
        simp only [Option.some_bind, Yaml.asMap] at h
        cases hs : mget cm "schemas" with
        | none => rw [hs] at h; simp at h
        | some sch =>
          rw [hs] at h
          cases sch with
          | ymap entries =>
            have hes : entries = es := by simpa [Yaml.asMap] using h
            subst hes
            simp only [updateSchemas, Option.some_bind]
            rw [mget_mUpdateFirst_self, hc]
            simp only [Option.map_some', Option.some_bind, updComponentsSchemas, Yaml.asMap]
            rw [mget_mUpdateFirst_self, hs]
            simp [updSchemasInner, Yaml.asMap]
          | ystr s => simp [Yaml.asMap] at h
          | ynum n2 => simp [Yaml.asMap] at h
          | ybool b => simp [Yaml.asMap] at h
          | ynull => simp [Yaml.asMap] at h
          | yseq s => simp [Yaml.asMap] at h
      | ystr s => simp [Yaml.asMap] at h
      | ynum n2 => simp [Yaml.asMap] at h
      | ybool b => simp [Yaml.asMap] at h
      | ynull => simp [Yaml.asMap] at h
      | yseq s => simp [Yaml.asMap] at h
  | ystr s => simp [schemasOf, Yaml.asMap] at h
  | ynum n2 => simp [schemasOf, Yaml.asMap] at h
  | ybool b => simp [schemasOf, Yaml.asMap] at h
  | ynull => simp [schemasOf, Yaml.asMap] at h
  | yseq s => simp [schemasOf, Yaml.asMap] at h

theorem filter_mUpdateFirst_skip (m : List (Yaml × Yaml)) (k : String) (f : Yaml → Yaml) :
    (mUpdateFirst m k f).filter (fun kv => !keyIs kv.1 k)
      = m.filter (fun kv => !keyIs kv.1 k) := by
  induction m with
  | nil => rfl
  | cons kv rest ih =>
    obtain ⟨key, v⟩ := kv
    by_cases hk : keyIs key k
    · simp [mUpdateFirst, hk, List.filter_cons]
    · simp [mUpdateFirst, hk, List.filter_cons, ih]

theorem extRefsOfEntry_update (k v : Yaml)
    (g : List (Yaml × Yaml) → List (Yaml × Yaml)) (hk : keyIs k "components" = true) :
    extRefsOfEntry (k, updComponentsSchemas g v) = extRefsOfEntry (k, v) := by
  unfold extRefsOfEntry
  rw [if_pos hk, if_pos hk]
  cases v with
  | ymap cm =>
    simp only [updComponentsSchemas, Yaml.asMap]
    rw [filter_mUpdateFirst_skip]
  | ystr s => rfl
  | ynum n => rfl
  | ybool b => rfl
  | ynull => rfl
  | yseq s => rfl

theorem collect_external_update (doc : Yaml)
    (g : List (Yaml × Yaml) → List (Yaml × Yaml)) :
    collect_external_schema_refs (updateSchemas doc g)
      = collect_external_schema_refs doc := by
  cases doc with
  | ymap root =>
    simp only [updateSchemas, collect_external_schema_refs, Yaml.asMap]
    induction root with
    | nil => rfl
    | cons kv rest ih =>
      obtain ⟨key, v⟩ := kv
      by_cases hk : keyIs key "components"
      · simp only [mUpdateFirst, hk, if_true, List.foldr_cons]
        rw [extRefsOfEntry_update key v g hk]
      · simp only [mUpdateFirst, hk, Bool.false_eq_true, if_false, List.foldr_cons]
        rw [ih]
  | ystr s => rfl
  | ynum n => rfl
  | ybool b => rfl
  | ynull => rfl
  | yseq s => rfl

theorem mget_filter_keep (es : List (Yaml × Yaml)) (orphans : List String) (k : String)
    (hk : k ∉ orphans) :
    mget (es.filter (fun kv => !(orphans.any (fun m => keyIs kv.1 m)))) k = mget es k := by
  induction es with
  | nil => rfl
  | cons kv rest ih =>
    obtain ⟨key, v⟩ := kv
    by_cases hkey : keyIs key k
    · have hkeystr : key = .ystr k := by
        cases key <;> simp [keyIs] at hkey <;> simp [hkey]
      subst hkeystr
      have hany : (orphans.any (fun m => keyIs (.ystr k) m)) = false := by
        rw [Bool.eq_false_iff]
        intro hco
        obtain ⟨m, hm, hkm⟩ := List.any_eq_true.mp hco
        simp [keyIs] at hkm
        exact hk (hkm ▸ hm)
      simp only [List.filter_cons, hany, Bool.not_false, if_true]
      simp only [mget, hkey, if_true]
    · by_cases hkeep : (orphans.any (fun m => keyIs key m))
      · simp only [List.filter_cons, hkeep, Bool.not_true, Bool.false_eq_true, if_false]
        rw [ih]
        simp [mget, hkey]
      · simp only [List.filter_cons, hkeep, Bool.not_false, if_true]
        simp [mget, hkey, ih]

theorem mget_mem_names (es : List (Yaml × Yaml)) (k : String) (v : Yaml)
    (h : mget es k = some v) : k ∈ es.filterMap (fun kv => kv.1.asStr) := by
  induction es with
  | nil => simp [mget] at h
  | cons kv rest ih =>
    obtain ⟨key, w⟩ := kv
    by_cases hk : keyIs key k
    · have hkeystr : key = .ystr k := by
        cases key <;> simp [keyIs] at hk <;> simp [hk]
      subst hkeystr
      simp [List.filterMap_cons, Yaml.asStr]
    · simp [mget, hk] at h
      cases hks : key.asStr with
      | none =>
        simp only [List.filterMap_cons, hks]
        exact ih h
      | some s =>
        simp only [List.filterMap_cons, hks]
        exact List.mem_cons_of_mem _ (ih h)

theorem schemaNames_update_mem (doc : Yaml) (orphans : List String)
    (es : List (Yaml × Yaml)) (h : schemasOf doc = some es) (n : String) :
    n ∈ schemaNames (updateSchemas doc (fun entries =>
        entries.filter (fun kv => !(orphans.any (fun m => keyIs kv.1 m)))))
      ↔ n ∈ schemaNames doc ∧ n ∉ orphans := by
  unfold schemaNames
  rw [schemasOf_update _ _ _ h, h]
  simp only [Option.getD_some]
  constructor
  · intro hn
    obtain ⟨kv, hkv, hstr⟩ := List.mem_filterMap.mp hn
    obtain ⟨hmem, hpred⟩ := List.mem_filter.mp hkv
    have hkey : kv.1 = .ystr n := asStr_eq_some _ _ hstr
    refine ⟨List.mem_filterMap.mpr ⟨kv, hmem, hstr⟩, ?_⟩
    intro hno
    rw [hkey] at hpred
    simp at hpred
    have := hpred n hno
    simp [keyIs] at this
  · intro ⟨hn, hno⟩
    obtain ⟨kv, hkv, hstr⟩ := List.mem_filterMap.mp hn
    have hkey : kv.1 = .ystr n := asStr_eq_some _ _ hstr
    refine List.mem_filterMap.mpr ⟨kv, List.mem_filter.mpr ⟨hkv, ?_⟩, hstr⟩
    rw [hkey]
    rw [Bool.not_eq_eq_eq_not, Bool.not_true, Bool.eq_false_iff]
    intro hco
    obtain ⟨m, hm, hkm⟩ := List.any_eq_true.mp hco
    simp [keyIs] at hkm
    exact hno (hkm ▸ hm)

theorem deriv_transport (snap : List (Yaml × Yaml)) (roots orphans : List String)
    (hkeep : ∀ m v, mget snap m = some v → SchemaDeriv snap roots m → m ∉ orphans) :
    ∀ x, SchemaDeriv snap roots x →
      SchemaDeriv (snap.filter (fun kv => !(orphans.any (fun m => keyIs kv.1 m)))) roots x := by
  intro x hx
  induction hx with
  | root n hn => exact .root n hn
  | step m n v r hder hm hr hs ih =>
    have hm2 : mget (snap.filter (fun kv => !(orphans.any (fun m2 => keyIs kv.1 m2)))) m
        = some v := by
      rw [mget_filter_keep _ _ _ (hkeep m v hm hder)]
      exact hm
    exact .step m n v r ih hm2 hr hs

theorem schemasOf_isSome_of_names (doc : Yaml)
    (h : ¬ (schemaNames doc).isEmpty = true) : ∃ es, schemasOf doc = some es := by
  cases hs : schemasOf doc with
  | some es => exact ⟨es, rfl⟩
  | none =>
    exfalso
    apply h
    simp [schemaNames, hs]

theorem remove_orphaned_mem_iff (doc : Yaml) (n : String) :
    n ∈ schemaNames (remove_orphaned_schemas doc)
      ↔ n ∈ schemaNames doc ∧ SchemaReachable doc n := by
  by_cases h0 : (schemaNames doc).isEmpty
  · rw [remove_orphaned_schemas, if_pos h0]
    have hnil : schemaNames doc = [] := List.isEmpty_iff.mp h0
    rw [hnil]
    simp
  · by_cases h1 : (orphansOf doc).isEmpty
    · rw [remove_orphaned_schemas, if_neg h0, if_pos h1]
      have hall : ∀ m ∈ schemaNames doc, m ∈ reachableOf doc := by
        intro m hm
        by_contra hmn
        have hmem : m ∈ orphansOf doc :=
          List.mem_filter.mpr ⟨hm, by simpa using hmn⟩
        rw [List.isEmpty_iff.mp h1] at hmem
        simp at hmem
      constructor
      · intro hn
        exact ⟨hn, (reachableOf_iff doc n).mp (hall n hn)⟩
      · exact fun h => h.1
    · rw [remove_orphaned_schemas, if_neg h0, if_neg h1]
      obtain ⟨es, hes⟩ := schemasOf_isSome_of_names doc h0
      rw [schemaNames_update_mem doc (orphansOf doc) es hes n]
      constructor
      · intro ⟨hn, hno⟩
        refine ⟨hn, (reachableOf_iff doc n).mp ?_⟩
        by_contra hnr
        exact hno (List.mem_filter.mpr ⟨hn, by simpa using hnr⟩)
      · intro ⟨hn, hr⟩
        refine ⟨hn, ?_⟩
        intro hno
        have hpred := (List.mem_filter.mp hno).2
        simp at hpred
        exact hpred ((reachableOf_iff doc n).mpr hr)

theorem remove_orphaned_noop (doc : Yaml)
    (hall : ∀ n ∈ schemaNames doc, SchemaReachable doc n) :
    remove_orphaned_schemas doc = doc := by
  rw [remove_orphaned_schemas]
  by_cases h0 : (schemaNames doc).isEmpty
  · rw [if_pos h0]
  · rw [if_neg h0]
    have h1 : (orphansOf doc).isEmpty = true := by
      rw [List.isEmpty_iff]
      unfold orphansOf
      rw [List.filter_eq_nil]
      intro m hm
      simp
      exact (reachableOf_iff doc m).mpr (hall m hm)
    rw [if_pos h1]

theorem schemaReachable_remove (doc : Yaml) (n : String) (h : SchemaReachable doc n) :
    SchemaReachable (remove_orphaned_schemas doc) n := by
  by_cases h0 : (schemaNames doc).isEmpty
  · rw [remove_orphaned_schemas, if_pos h0]
    exact h
  · by_cases h1 : (orphansOf doc).isEmpty
    · rw [remove_orphaned_schemas, if_neg h0, if_pos h1]
      exact h
    · rw [remove_orphaned_schemas, if_neg h0, if_neg h1]
      obtain ⟨es, hes⟩ := schemasOf_isSome_of_names doc h0
      unfold SchemaReachable
      rw [collect_external_update, schemasOf_update _ _ _ hes]
      simp only [Option.getD_some]
      have htrans := deriv_transport es
        ((collect_external_schema_refs doc).filterMap stripSchemaRef)
        (orphansOf doc) ?_ n ?_
      · exact htrans
      · intro m v hm hder
        intro hmo
        have hpred := (List.mem_filter.mp hmo).2
        simp at hpred
        apply hpred
        rw [reachableOf_iff doc m]
        unfold SchemaReachable
        rw [hes]
        exact hder
      · unfold SchemaReachable at h
        rw [hes] at h
        exact h

/-- C1: after orphan pruning the named-schema registry contains exactly
the schemas of the original registry reachable by transitively following
`$ref` links from references occurring outside `components.schemas`; a
cluster referencing only itself and referenced from nowhere else is
removed entirely. -/
theorem remove_orphaned_schemas_reachability (doc : Yaml) (n : String) :
    n ∈ schemaNames (remove_orphaned_schemas doc)
      ↔ n ∈ schemaNames doc ∧ SchemaReachable doc n :=
  remove_orphaned_mem_iff doc n

/-- C2: orphan pruning is idempotent — pruning an already-pruned document
changes nothing. -/
theorem remove_orphaned_schemas_idempotent (doc : Yaml) :
    remove_orphaned_schemas (remove_orphaned_schemas doc)
      = remove_orphaned_schemas doc := by
  apply remove_orphaned_noop
  intro n hn
  obtain ⟨_, hreach⟩ := (remove_orphaned_mem_iff doc n).mp hn
  exact schemaReachable_remove doc n hreach

/-! ## Path-field stripping: write and frame lemmas -/

theorem asMap_eq_some (y : Yaml) (m : List (Yaml × Yaml)) (h : y.asMap = some m) :
    y = .ymap m := by
  cases y <;> simp [Yaml.asMap] at h <;> simp [h]

theorem mget_mUpdateMapValue_ne (m : List (Yaml × Yaml)) (k k2 : String)
    (f : List (Yaml × Yaml) → List (Yaml × Yaml)) (h : k ≠ k2) :
    mget (mUpdateMapValue m k f) k2 = mget m k2 :=
  mget_mUpdateFirst_ne m k k2 _ h

theorem mget_mUpdateMapValue_self (m : List (Yaml × Yaml)) (k : String)
    (f : List (Yaml × Yaml) → List (Yaml × Yaml)) :
    mget (mUpdateMapValue m k f) k = (mget m k).map (fun v =>
      match v with
      | .ymap mm => .ymap (f mm)
      | other => other) :=
  mget_mUpdateFirst_self m k _

theorem writeBodySchema_components (d : Yaml) (p m : String) (s : Yaml) :
    componentsOf (writeBodySchema d p m s) = componentsOf d := by
  cases d with
  | ymap root =>
    simp only [writeBodySchema, componentsOf, Yaml.asMap, Option.some_bind]
    exact mget_mUpdateMapValue_ne root "paths" "components" _ (by decide)
  | ystr s2 => rfl
  | ynum n => rfl
  | ybool b => rfl
  | ynull => rfl
  | yseq s2 => rfl

theorem writeBodySchema_other (d : Yaml) (p m s2p s2m : String) (s : Yaml)
    (h : ¬(s2p = p ∧ s2m = m)) :
    opAt (writeBodySchema d p m s) s2p s2m = opAt d s2p s2m := by
  cases d with
  | ymap root =>
    simp only [writeBodySchema, opAt, Yaml.asMap, Option.some_bind]
    rw [mget_mUpdateMapValue_self]
    cases hpaths : mget root "paths" with
    | none => rfl
    | some pv =>
      simp only [Option.map_some', Option.some_bind]
      cases pv with
      | ymap pathsM =>
        simp only [Yaml.asMap, Option.some_bind]
        by_cases hp : s2p = p
        · subst hp
          rw [mget_mUpdateMapValue_self]
          cases hpv : mget pathsM s2p with
          | none => rfl
          | some piv =>
            simp only [Option.map_some', Option.some_bind]
            cases piv with
            | ymap pim =>
              simp only [Yaml.asMap, Option.some_bind]
              have hm : s2m ≠ m := fun hmm => h ⟨rfl, hmm⟩
              rw [mget_mUpdateMapValue_ne pim m s2m _ (Ne.symm hm)]
            | ystr a => rfl
            | ynum a => rfl
            | ybool a => rfl
            | ynull => rfl
            | yseq a => rfl
        · rw [mget_mUpdateMapValue_ne pathsM p s2p _ (Ne.symm hp)]
      | ystr a => rfl
      | ynum a => rfl
      | ybool a => rfl
      | ynull => rfl
      | yseq a => rfl
  | ystr a => rfl
  | ynum a => rfl
  | ybool a => rfl
  | ynull => rfl
  | yseq a => rfl

theorem writeBodySchema_hit (d : Yaml) (p m : String) (op : List (Yaml × Yaml)) (s : Yaml)
    (hop : opAt d p m = some op) (hbody : (bodySchemaOf op).isSome = true) :
    bodySchemaAt (writeBodySchema d p m s) p m = some s := by
  cases d with
  | ymap root =>
    simp only [opAt, Yaml.asMap, Option.some_bind] at hop
    cases hpaths : mget root "paths" with
    | none => rw [hpaths] at hop; simp at hop
    | some pv =>
      rw [hpaths] at hop
      simp only [Option.some_bind] at hop
      cases pv with
      | ymap pathsM =>
        simp only [Yaml.asMap, Option.some_bind] at hop
        cases hpv : mget pathsM p with
        | none => rw [hpv] at hop; simp at hop
        | some piv =>
          rw [hpv] at hop
          simp only [Option.some_bind] at hop
          cases piv with
          | ymap pim =>
            simp only [Yaml.asMap, Option.some_bind] at hop
            cases hopv : mget pim m with
            | none => rw [hopv] at hop; simp at hop
            | some opv =>
              rw [hopv] at hop
              simp only [Option.some_bind] at hop
              cases opv with
              | ymap opm =>
                have hopm : opm = op := by simpa [Yaml.asMap] using hop
                subst hopm
                obtain ⟨bsv, hbsv⟩ := Option.isSome_iff_exists.mp hbody
                simp only [bodySchemaOf] at hbsv
                cases hrb : mget opm "requestBody" with
                | none => rw [hrb] at hbsv; simp at hbsv
                | some rbv =>
                  rw [hrb] at hbsv
                  simp only [Option.some_bind] at hbsv
                  cases rbv with
                  | ymap rbm =>
                    simp only [Yaml.asMap, Option.some_bind] at hbsv
                    cases hc : mget rbm "content" with
                    | none => rw [hc] at hbsv; simp at hbsv
                    | some cv =>
                      rw [hc] at hbsv
                      simp only [Option.some_bind] at hbsv
                      cases cv with
                      | ymap cmm =>
                        simp only [Yaml.asMap, Option.some_bind] at hbsv
                        cases hmt : mget cmm "application/json" with
                        | none => rw [hmt] at hbsv; simp at hbsv
                        | some mtv =>
                          rw [hmt] at hbsv
                          simp only [Option.some_bind] at hbsv
                          cases mtv with
                          | ymap mtm =>
                            simp only [Yaml.asMap, Option.some_bind] at hbsv
                            simp only [writeBodySchema, bodySchemaAt, opAt,
                              bodySchemaOf, Yaml.asMap, Option.some_bind]
                            rw [mget_mUpdateMapValue_self, hpaths]
                            simp only [Option.map_some', Option.some_bind, Yaml.asMap]
                            rw [mget_mUpdateMapValue_self, hpv]
                            simp only [Option.map_some', Option.some_bind, Yaml.asMap]
                            rw [mget_mUpdateMapValue_self, hopv]
                            simp only [Option.map_some', Option.some_bind, Yaml.asMap]
                            rw [mget_mUpdateMapValue_self, hrb]
                            simp only [Option.map_some', Option.some_bind, Yaml.asMap]
                            rw [mget_mUpdateMapValue_self, hc]
                            simp only [Option.map_some', Option.some_bind, Yaml.asMap]
                            rw [mget_mUpdateMapValue_self, hmt]
                            simp only [Option.map_some', Option.some_bind, Yaml.asMap]
                            rw [mget_mUpdateFirst_self]
                            cases hsv : mget mtm "schema" with
                            | none => rw [hsv] at hbsv; simp at hbsv
                            | some sv => simp
                          | ystr a => simp [Yaml.asMap] at hbsv
                          | ynum a => simp [Yaml.asMap] at hbsv
                          | ybool a => simp [Yaml.asMap] at hbsv
                          | ynull => simp [Yaml.asMap] at hbsv
                          | yseq a => simp [Yaml.asMap] at hbsv
                      | ystr a => simp [Yaml.asMap] at hbsv
                      | ynum a => simp [Yaml.asMap] at hbsv
                      | ybool a => simp [Yaml.asMap] at hbsv
                      | ynull => simp [Yaml.asMap] at hbsv
                      | yseq a => simp [Yaml.asMap] at hbsv
                  | ystr a => simp [Yaml.asMap] at hbsv
                  | ynum a => simp [Yaml.asMap] at hbsv
                  | ybool a => simp [Yaml.asMap] at hbsv
                  | ynull => simp [Yaml.asMap] at hbsv
                  | yseq a => simp [Yaml.asMap] at hbsv
              | ystr a => simp [Yaml.asMap] at hop
              | ynum a => simp [Yaml.asMap] at hop
              | ybool a => simp [Yaml.asMap] at hop
              | ynull => simp [Yaml.asMap] at hop
              | yseq a => simp [Yaml.asMap] at hop
          | ystr a => simp [Yaml.asMap] at hop
          | ynum a => simp [Yaml.asMap] at hop
          | ybool a => simp [Yaml.asMap] at hop
          | ynull => simp [Yaml.asMap] at hop
          | yseq a => simp [Yaml.asMap] at hop
      | ystr a => simp [Yaml.asMap] at hop
      | ynum a => simp [Yaml.asMap] at hop
      | ybool a => simp [Yaml.asMap] at hop
      | ynull => simp [Yaml.asMap] at hop
      | yseq a => simp [Yaml.asMap] at hop
  | ystr a => simp [opAt, Yaml.asMap] at hop
  | ynum a => simp [opAt, Yaml.asMap] at hop
  | ybool a => simp [opAt, Yaml.asMap] at hop
  | ynull => simp [opAt, Yaml.asMap] at hop
  | yseq a => simp [opAt, Yaml.asMap] at hop

theorem stripStep_components (d : Yaml) (info : StripInfo) :
    componentsOf (stripStep d info) = componentsOf d := by
  unfold stripStep
  cases h : lookupSchema d (trimSchemasRoot info.schema_ref) with
  | none => rfl
  | some sch => exact writeBodySchema_components d info.path info.method _

theorem stripStep_other (d : Yaml) (info : StripInfo) (p2 m2 : String)
    (h : ¬(info.path = p2 ∧ info.method = m2)) :
    opAt (stripStep d info) p2 m2 = opAt d p2 m2 := by
  unfold stripStep
  cases hl : lookupSchema d (trimSchemasRoot info.schema_ref) with
  | none => rfl
  | some sch =>
    exact writeBodySchema_other d info.path info.method p2 m2 _
      (fun ⟨h1, h2⟩ => h ⟨h1.symm, h2.symm⟩)

theorem schemasOf_congr (d1 d2 : Yaml) (h : componentsOf d1 = componentsOf d2) :
    schemasOf d1 = schemasOf d2 := by
  unfold schemasOf
  unfold componentsOf at h
  rw [h]

theorem foldl_stripStep_components (is : List StripInfo) :
    ∀ d0 : Yaml, componentsOf (is.foldl stripStep d0) = componentsOf d0 := by
  induction is with
  | nil => intro d0; rfl
  | cons i rest ih =>
    intro d0
    rw [List.foldl_cons, ih, stripStep_components]

theorem foldl_stripStep_other (is : List StripInfo) (p2 m2 : String) :
    ∀ d0 : Yaml, (∀ i ∈ is, ¬(i.path = p2 ∧ i.method = m2)) →
    opAt (is.foldl stripStep d0) p2 m2 = opAt d0 p2 m2 := by
  induction is with
  | nil => intro d0 _; rfl
  | cons i rest ih =>
    intro d0 hall
    rw [List.foldl_cons, ih _ (fun j hj => hall j (List.mem_cons_of_mem _ hj)),
      stripStep_other d0 i p2 m2 (hall i (List.mem_cons_self _ _))]

theorem nodup_mget (es : List (Yaml × Yaml)) (k : Yaml) (v : Yaml) (s : String)
    (hnd : (es.filterMap (fun kv => kv.1.asStr)).Nodup)
    (hmem : (k, v) ∈ es) (hk : k.asStr = some s) :
    mget es s = some v := by
  induction es with
  | nil => simp at hmem
  | cons kv rest ih =>
    obtain ⟨k0, v0⟩ := kv
    by_cases hk0 : keyIs k0 s
    · have hk0s : k0 = .ystr s := by
        cases k0 <;> simp [keyIs] at hk0 <;> simp [hk0]
      subst hk0s
      rcases List.mem_cons.mp hmem with hhd | htl
      · have : k = Yaml.ystr s ∧ v = v0 := by
          have h1 := congrArg Prod.fst hhd
          have h2 := congrArg Prod.snd hhd
          exact ⟨h1, h2⟩
        simp [mget, keyIs, this.2]
      · exfalso
        have hks : k = .ystr s := asStr_eq_some _ _ hk
        subst hks
        have hsrest : s ∈ rest.filterMap (fun kv => kv.1.asStr) :=
          List.mem_filterMap.mpr ⟨(Yaml.ystr s, v), htl, rfl⟩
        simp only [List.filterMap_cons, Yaml.asStr] at hnd
        exact (List.nodup_cons.mp hnd).1 hsrest
    · have hne : ¬((k0, v0) = (k, v)) := by
        intro heq
        have := congrArg Prod.fst heq
        simp at this
        subst this
        rw [asStr_eq_some _ _ hk] at hk0
        simp [keyIs] at hk0
      have htl : (k, v) ∈ rest := by
        rcases List.mem_cons.mp hmem with hhd | htl
        · exact absurd hhd.symm hne
        · exact htl
      have hndrest : (rest.filterMap (fun kv => kv.1.asStr)).Nodup := by
        simp only [List.filterMap_cons] at hnd
        cases hk0a : k0.asStr with
        | none => rw [hk0a] at hnd; exact hnd
        | some s0 => rw [hk0a] at hnd; exact (List.nodup_cons.mp hnd).2
      simp only [mget, hk0, Bool.false_eq_true, if_false]
      exact ih hndrest htl

theorem mget_mem (es : List (Yaml × Yaml)) (k : String) (v : Yaml)
    (h : mget es k = some v) : ∃ key, (key, v) ∈ es ∧ keyIs key k = true := by
  induction es with
  | nil => simp [mget] at h
  | cons kv rest ih =>
    obtain ⟨k0, v0⟩ := kv
    by_cases hk0 : keyIs k0 k
    · simp [mget, hk0] at h
      exact ⟨k0, by simp [h], hk0⟩
    · simp [mget, hk0] at h
      obtain ⟨key, hmem, hkey⟩ := ih h
      exact ⟨key, List.mem_cons_of_mem _ hmem, hkey⟩

theorem keyIs_asStr (key : Yaml) (k : String) (h : keyIs key k = true) :
    key.asStr = some k := by
  cases key <;> simp [keyIs] at h <;> simp [Yaml.asStr, h]

theorem bodySchemaOf_isSome_of_ref (op : List (Yaml × Yaml)) (ref : String)
    (h : requestBodyRef op = some ref) : (bodySchemaOf op).isSome = true := by
  unfold requestBodyRef at h
  cases hb : bodySchemaOf op with
  | none => rw [hb] at h; simp at h
  | some v => simp

theorem collectStripOps_spec (doc : Yaml)
    (hnd1 : (pathKeysOf doc).Nodup)
    (hnd2 : ∀ pk pv, (pk, pv) ∈ pathsMapOf doc → ∀ pim, pv.asMap = some pim →
      (pim.filterMap (fun kv => kv.1.asStr)).Nodup) :
    ∀ i ∈ collectStripOps doc,
      ∃ op2, opAt doc i.path i.method = some op2
        ∧ i.fields_to_remove = pathFieldsOf op2
        ∧ pathFieldsOf op2 ≠ []
        ∧ requestBodyRef op2 = some i.schema_ref := by
  intro i hi
  unfold collectStripOps at hi
  cases hpm : ((doc.asMap.bind (fun r => mget r "paths")).bind Yaml.asMap) with
  | none => rw [hpm] at hi; simp at hi
  | some paths =>
    rw [hpm] at hi
    obtain ⟨pkv, hpkv, hgi⟩ := List.mem_flatMap.mp hi
    obtain ⟨pkey, pval⟩ := pkv
    cases hps : pkey.asStr with
    | none => simp only [hps] at hgi; simp at hgi
    | some pathStr =>
      simp only [hps] at hgi
      cases hpmap : pval.asMap with
      | none => simp only [hpmap] at hgi; simp at hgi
      | some pathMap =>
        simp only [hpmap] at hgi
        obtain ⟨okv, hokv, hsome⟩ := List.mem_filterMap.mp hgi
        obtain ⟨mkey, mval⟩ := okv
        cases hms : mkey.asStr with
        | none => simp only [hms] at hsome; simp at hsome
        | some methodStr =>
          simp only [hms] at hsome
          cases hom : mval.asMap with
          | none => simp only [hom] at hsome; simp at hsome
          | some opMap =>
            simp only [hom] at hsome
            by_cases hemp : (pathFieldsOf opMap).isEmpty
            · simp only [hemp, if_true] at hsome; simp at hsome
            · simp only [hemp, Bool.false_eq_true, if_false] at hsome
              cases href2 : requestBodyRef opMap with
              | none => simp only [href2] at hsome; simp at hsome
              | some ref2 =>
                simp only [href2] at hsome
                have hieq : i = ⟨pathStr, methodStr, ref2, pathFieldsOf opMap⟩ := by
                  simpa using hsome.symm
                subst hieq
                refine ⟨opMap, ?_, rfl, by simpa using hemp, href2⟩
                have hmgetp : mget paths pathStr = some pval := by
                  apply nodup_mget paths pkey pval pathStr ?_ hpkv hps
                  have : pathKeysOf doc = paths.filterMap (fun kv => kv.1.asStr) := by
                    unfold pathKeysOf pathsMapOf
                    rw [hpm]
                    rfl
                  rw [← this]
                  exact hnd1
                have hmgetm : mget pathMap methodStr = some mval := by
                  apply nodup_mget pathMap mkey mval methodStr ?_ hokv hms
                  have hpmem : (pkey, pval) ∈ pathsMapOf doc := by
                    unfold pathsMapOf
                    rw [hpm]
                    exact hpkv
                  exact hnd2 pkey pval hpmem pathMap hpmap
                unfold opAt
                rw [hpm]
                simp only [Option.some_bind]
                rw [hmgetp]
                simp only [Option.some_bind]
                rw [hpmap]
                simp only [Option.some_bind]
                rw [hmgetm]
                simp only [Option.some_bind]
                rw [hom]

theorem collectStripOps_exists (doc : Yaml) (p m : String) (op : List (Yaml × Yaml))
    (ref : String) (hop : opAt doc p m = some op)
    (hfields : pathFieldsOf op ≠ []) (href : requestBodyRef op = some ref) :
    (⟨p, m, ref, pathFieldsOf op⟩ : StripInfo) ∈ collectStripOps doc := by
  unfold opAt at hop
  cases hpm : ((doc.asMap.bind (fun r => mget r "paths")).bind Yaml.asMap) with
  | none => rw [hpm] at hop; simp at hop
  | some paths =>
    rw [hpm] at hop
    simp only [Option.some_bind] at hop
    cases hpv : mget paths p with
    | none => rw [hpv] at hop; simp at hop
    | some pv =>
      rw [hpv] at hop
      simp only [Option.some_bind] at hop
      cases hpim : pv.asMap with
      | none => rw [hpim] at hop; simp at hop
      | some pim =>
        rw [hpim] at hop
        simp only [Option.some_bind] at hop
        cases hopv : mget pim m with
        | none => rw [hopv] at hop; simp at hop
        | some opv =>
          rw [hopv] at hop
          simp only [Option.some_bind] at hop
          obtain ⟨pkey, hpkeymem, hpkeyIs⟩ := mget_mem paths p pv hpv
          obtain ⟨mkey, hmkeymem, hmkeyIs⟩ := mget_mem pim m opv hopv
          unfold collectStripOps
          rw [hpm]
          apply List.mem_flatMap.mpr
          refine ⟨(pkey, pv), hpkeymem, ?_⟩
          simp only [keyIs_asStr pkey p hpkeyIs, hpim]
          apply List.mem_filterMap.mpr
          refine ⟨(mkey, opv), hmkeymem, ?_⟩
          simp only [keyIs_asStr mkey m hmkeyIs, hop]
          have hne : (pathFieldsOf op).isEmpty = false := by
            cases hfe : (pathFieldsOf op).isEmpty
            · rfl
            · exact absurd (List.isEmpty_iff.mp hfe) hfields
          simp only [hne, Bool.false_eq_true, if_false, href]

theorem lookupSchema_congr (d1 d2 : Yaml) (name : String)
    (h : componentsOf d1 = componentsOf d2) :
    lookupSchema d1 name = lookupSchema d2 name := by
  unfold lookupSchema
  rw [schemasOf_congr d1 d2 h]

theorem stripStep_other_body (d : Yaml) (info : StripInfo) (p2 m2 : String)
    (h : ¬(info.path = p2 ∧ info.method = m2)) :
    bodySchemaAt (stripStep d info) p2 m2 = bodySchemaAt d p2 m2 := by
  unfold bodySchemaAt
  rw [stripStep_other d info p2 m2 h]

theorem stripStep_hit (doc d : Yaml) (p m ref : String) (op : List (Yaml × Yaml))
    (sch : Yaml)
    (hcomp : componentsOf d = componentsOf doc)
    (hsch : lookupSchema doc (trimSchemasRoot ref) = some sch)
    (href : requestBodyRef op = some ref)
    (hdis : opAt d p m = some op ∨
      bodySchemaAt d p m = some (stripSchemaFields sch (pathFieldsOf op))) :
    bodySchemaAt (stripStep d ⟨p, m, ref, pathFieldsOf op⟩) p m
      = some (stripSchemaFields sch (pathFieldsOf op)) := by
  have hl : lookupSchema d (trimSchemasRoot ref) = some sch := by
    rw [lookupSchema_congr d doc _ hcomp]
    exact hsch
  unfold stripStep
  dsimp only
  rw [hl]
  cases hdis with
  | inl hop =>
    exact writeBodySchema_hit d p m op _ hop (bodySchemaOf_isSome_of_ref op ref href)
  | inr hbody =>
    unfold bodySchemaAt at hbody
    cases hop2 : opAt d p m with
    | none => rw [hop2] at hbody; simp at hbody
    | some op2 =>
      rw [hop2] at hbody
      simp only [Option.some_bind] at hbody
      exact writeBodySchema_hit d p m op2 _ hop2 (by rw [hbody]; rfl)

theorem foldl_stripStep_inv (doc : Yaml) (p m ref : String) (op : List (Yaml × Yaml))
    (sch : Yaml)
    (hsch : lookupSchema doc (trimSchemasRoot ref) = some sch)
    (href : requestBodyRef op = some ref) :
    ∀ (is : List StripInfo) (d0 : Yaml),
      componentsOf d0 = componentsOf doc →
      (opAt d0 p m = some op ∨
        bodySchemaAt d0 p m = some (stripSchemaFields sch (pathFieldsOf op))) →
      (∀ i ∈ is, i.path = p → i.method = m → i = ⟨p, m, ref, pathFieldsOf op⟩) →
      (opAt (is.foldl stripStep d0) p m = some op ∨
        bodySchemaAt (is.foldl stripStep d0) p m
          = some (stripSchemaFields sch (pathFieldsOf op))) := by
  intro is
  induction is with
  | nil => intro d0 _ hdis _; exact hdis
  | cons i rest ih =>
    intro d0 hcomp hdis hall
    rw [List.foldl_cons]
    have hcomp1 : componentsOf (stripStep d0 i) = componentsOf doc := by
      rw [stripStep_components]; exact hcomp
    by_cases htgt : i.path = p ∧ i.method = m
    · have hieq : i = ⟨p, m, ref, pathFieldsOf op⟩ :=
        hall i (List.mem_cons_self _ _) htgt.1 htgt.2
      subst hieq
      refine ih _ hcomp1 (Or.inr ?_) (fun j hj => hall j (List.mem_cons_of_mem _ hj))
      exact stripStep_hit doc d0 p m ref op sch hcomp hsch href hdis
    · refine ih _ hcomp1 ?_ (fun j hj => hall j (List.mem_cons_of_mem _ hj))
      cases hdis with
      | inl h => exact Or.inl (by rw [stripStep_other d0 i p m htgt]; exact h)
      | inr h => exact Or.inr (by rw [stripStep_other_body d0 i p m htgt]; exact h)

theorem foldl_stripStep_hold (doc : Yaml) (p m ref : String) (op : List (Yaml × Yaml))
    (sch : Yaml)
    (hsch : lookupSchema doc (trimSchemasRoot ref) = some sch)
    (href : requestBodyRef op = some ref) :
    ∀ (is : List StripInfo) (d0 : Yaml),
      componentsOf d0 = componentsOf doc →
      bodySchemaAt d0 p m = some (stripSchemaFields sch (pathFieldsOf op)) →
      (∀ i ∈ is, i.path = p → i.method = m → i = ⟨p, m, ref, pathFieldsOf op⟩) →
      bodySchemaAt (is.foldl stripStep d0) p m
        = some (stripSchemaFields sch (pathFieldsOf op)) := by
  intro is
  induction is with
  | nil => intro d0 _ hbody _; exact hbody
  | cons i rest ih =>
    intro d0 hcomp hbody hall
    rw [List.foldl_cons]
    have hcomp1 : componentsOf (stripStep d0 i) = componentsOf doc := by
      rw [stripStep_components]; exact hcomp
    by_cases htgt : i.path = p ∧ i.method = m
    · have hieq : i = ⟨p, m, ref, pathFieldsOf op⟩ :=
        hall i (List.mem_cons_self _ _) htgt.1 htgt.2
      subst hieq
      refine ih _ hcomp1 ?_ (fun j hj => hall j (List.mem_cons_of_mem _ hj))
      exact stripStep_hit doc d0 p m ref op sch hcomp hsch href (Or.inr hbody)
    · refine ih _ hcomp1 ?_ (fun j hj => hall j (List.mem_cons_of_mem _ hj))
      rw [stripStep_other_body d0 i p m htgt]
      exact hbody

/-- **C9.** For every operation with path parameters (nonempty stripped
field list) whose request body references a shared component schema that
resolves in `components.schemas`, `strip_path_fields_from_body` (a) replaces
that operation's body schema slot with the clone of the component schema from
which the path-bound properties and their `required` entries are removed
(`stripSchemaFields`), (b) leaves the `components` value — hence every shared
schema — unchanged, and (c) leaves operations without path parameters
untouched, so they keep referencing the untouched shared schema. The
`Nodup` hypotheses state that the YAML `paths` mapping and each path item
have distinct keys, as mappings parsed by serde_yaml_ng do. -/
theorem strip_path_fields_from_body_spec (doc : Yaml) (p m ref : String)
    (op : List (Yaml × Yaml)) (sch : Yaml)
    (hnd1 : (pathKeysOf doc).Nodup)
    (hnd2 : ∀ pk pv, (pk, pv) ∈ pathsMapOf doc → ∀ pim, pv.asMap = some pim →
      (pim.filterMap (fun kv => kv.1.asStr)).Nodup)
    (hop : opAt doc p m = some op)
    (hfields : pathFieldsOf op ≠ [])
    (href : requestBodyRef op = some ref)
    (hsch : lookupSchema doc (trimSchemasRoot ref) = some sch) :
    bodySchemaAt (strip_path_fields_from_body doc) p m
        = some (stripSchemaFields sch (pathFieldsOf op))
      ∧ componentsOf (strip_path_fields_from_body doc) = componentsOf doc
      ∧ (∀ p2 m2 op2, opAt doc p2 m2 = some op2 → pathFieldsOf op2 = [] →
          opAt (strip_path_fields_from_body doc) p2 m2 = some op2) := by
  have hmem := collectStripOps_exists doc p m op ref hop hfields href
  have hne : (collectStripOps doc).isEmpty = false := by
    cases h : (collectStripOps doc).isEmpty
    · rfl
    · rw [List.isEmpty_iff.mp h] at hmem; simp at hmem
  have hres : strip_path_fields_from_body doc
      = (collectStripOps doc).foldl stripStep doc := by
    simp only [strip_path_fields_from_body, hne, Bool.false_eq_true, if_false]
  have hall : ∀ i ∈ collectStripOps doc, i.path = p → i.method = m →
      i = ⟨p, m, ref, pathFieldsOf op⟩ := by
    intro i hi hip him
    obtain ⟨ip, im, ir, ifs⟩ := i
    obtain ⟨op2, hop2, hfeq, hne2, href2⟩ := collectStripOps_spec doc hnd1 hnd2 _ hi
    dsimp only at hip him hfeq href2 hop2 ⊢
    subst hip
    subst him
    rw [hop] at hop2
    injection hop2 with he
    subst he
    rw [href] at href2
    injection href2 with he2
    subst he2
    rw [hfeq]
  obtain ⟨is1, is2, hsplit⟩ := List.append_of_mem hmem
  refine ⟨?_, ?_, ?_⟩
  · rw [hres, hsplit, List.foldl_append, List.foldl_cons]
    apply foldl_stripStep_hold doc p m ref op sch hsch href is2 _ ?_ ?_ ?_
    · rw [stripStep_components, foldl_stripStep_components]
    · apply stripStep_hit doc _ p m ref op sch ?_ hsch href ?_
      · rw [foldl_stripStep_components]
      · exact foldl_stripStep_inv doc p m ref op sch hsch href is1 doc rfl (Or.inl hop)
          (fun j hj => hall j (by rw [hsplit]; exact List.mem_append_left _ hj))
    · exact fun j hj => hall j
        (by rw [hsplit]; exact List.mem_append_right _ (List.mem_cons_of_mem _ hj))
  · rw [hres, foldl_stripStep_components]
  · intro p2 m2 op2 hop2 hempty
    have hall2 : ∀ i ∈ collectStripOps doc, ¬(i.path = p2 ∧ i.method = m2) := by
      rintro i hi ⟨hip, him⟩
      obtain ⟨op3, hop3, _, hnef, _⟩ := collectStripOps_spec doc hnd1 hnd2 i hi
      rw [hip, him, hop2] at hop3
      injection hop3 with he
      exact hnef (he ▸ hempty)
    rw [hres, foldl_stripStep_other (collectStripOps doc) p2 m2 doc hall2]
    exact hop2

theorem strip_path_fields_from_body_spec_witness :
    bodySchemaAt (strip_path_fields_from_body stripDoc0) "/v1/items/one" "post"
        = some (stripSchemaFields itemSchema0 (pathFieldsOf stripOp0))
      ∧ componentsOf (strip_path_fields_from_body stripDoc0) = componentsOf stripDoc0
      ∧ (∀ p2 m2 op2, opAt stripDoc0 p2 m2 = some op2 → pathFieldsOf op2 = [] →
          opAt (strip_path_fields_from_body stripDoc0) p2 m2 = some op2) :=
  strip_path_fields_from_body_spec stripDoc0 "/v1/items/one" "post"
    "#/components/schemas/Item" stripOp0 itemSchema0
    (by decide)
    (by
      intro pk pv hmem pim hpim
      have hl : pathsMapOf stripDoc0 =
          [(.ystr "/v1/items/one", .ymap [(.ystr "post", .ymap stripOp0)]),
           (.ystr "/v1/items", .ymap [(.ystr "post", .ymap stripOp1)])] := rfl
      rw [hl] at hmem
      simp only [List.mem_cons, List.not_mem_nil, or_false] at hmem
      rcases hmem with h | h
      · injection h with h1 h2
        subst h1; subst h2
        simp only [Yaml.asMap] at hpim
        injection hpim with h3
        subst h3
        decide
      · injection h with h1 h2
        subst h1; subst h2
        simp only [Yaml.asMap] at hpim
        injection hpim with h3
        subst h3
        decide)
    (by rfl) (by decide) (by decide) (by rfl)
